import Mathlib

/-!
Verification of `packages/text-search-engine/src/search.ts`: a shallow
embedding of the boundary-mapping fuzzy matcher and its sentence
orchestration, with theorems about the specified properties.

Strings are embedded as `List Char`, JavaScript numbers as `Int`/`Nat`
(all values involved are small integers), JavaScript `undefined` results
as `Option`, and a thrown `TypeError` (reading a property of `undefined`)
as the distinguished value `JsVal.crash`.
-/

/-- Result of a search call: a thrown exception, the `undefined` no-match
value, or a hit matrix (list of inclusive `[start, end]` ranges). -/
inductive JsVal where
  | crash
  | noMatch
  | matrix (m : List (Int × Int))
deriving DecidableEq, Repr

abbrev HitMatrix := List (Int × Int)

/-- JavaScript indexed read `xs[i]`: `undefined` (`none`) when out of range. -/
def jsAt? (xs : List α) (i : Int) : Option α :=
  if h : 0 ≤ i ∧ i.toNat < xs.length then some (xs.get ⟨i.toNat, h.2⟩) else none

/-- Pointwise update of a function used to model JavaScript array writes. -/
def updF (f : Nat → α) (i : Nat) (v : α) : Nat → α :=
  fun k => if k = i then v else f k

/-- Pointwise update of a two-index function (for the DP path table). -/
def updF2 (f : Nat → Nat → α) (i j : Nat) (v : α) : Nat → Nat → α :=
  fun k l => if k = i ∧ l = j then v else f k l

/-- Whitespace test for the characters the queries may contain
(JavaScript `\s` restricted to ASCII whitespace). -/
def jsIsSpace (c : Char) : Bool :=
  c = ' ' || c = '\t' || c = '\n' || c = '\r'

/-- JavaScript `String.prototype.trim`. -/
def jsTrim (l : List Char) : List Char :=
  ((l.dropWhile jsIsSpace).reverse.dropWhile jsIsSpace).reverse

/-- Auxiliary scanner for `jsIndexOf?`. -/
def jsIndexOfAux (t : List Char) : List Char → Nat → Option Nat
  | s, i =>
    if t.isPrefixOf s then some i
    else
      match s with
      | [] => none
      | _ :: s2 => jsIndexOfAux t s2 (i + 1)

/-- JavaScript `source.indexOf(t)`, as `none` instead of `-1` on failure:
the first position where `t` occurs as a contiguous prefix of a suffix. -/
def jsIndexOf? (s t : List Char) : Option Nat :=
  jsIndexOfAux t s 0

/-- Splitting on whitespace runs, `sentence.trim().split(/\s+/)`: on the
empty list JavaScript yields `[""]`. Applied to trimmed input only. -/
def splitWSAux : Nat → List Char → List Char → List (List Char)
  | _, [], cur => [cur.reverse]
  | 0, _ :: _, cur => [cur.reverse]
  | fuel + 1, c :: cs, cur =>
    if jsIsSpace c then cur.reverse :: splitWSAux fuel (cs.dropWhile jsIsSpace) []
    else splitWSAux fuel cs (c :: cur)

def splitWS (l : List Char) : List (List Char) :=
  splitWSAux l.length l []

/-- The processed mapping of `extractBoundaryMapping` (`types.ts`):
`pinyinString` is the concatenated transliteration, `boundary` has one
entry per transliteration letter (shifted by one: entry `m` describes
letter `m - 1`, entry `0` is a sentinel), each entry pairing the original
character index with the identifier of the reading the letter belongs to,
and `originalIndices` maps each original character position to its start
offset in `pinyinString`. -/
structure SourceMappingData where
  originalString : List Char
  originalLength : Nat
  pinyinString : List Char
  boundary : List (Int × Int)
  originalIndices : List Nat
deriving Repr

/-- `data.pinyinString.slice(originalIndices[startIndex], originalIndices[endIndex])`
with JavaScript coercions for out-of-range (`undefined`) indices. -/
def pSlice (d : SourceMappingData) (startIndex endIndex : Int) : List Char :=
  match jsAt? d.originalIndices startIndex, jsAt? d.originalIndices endIndex with
  | some a, some b => (d.pinyinString.take b).drop a
  | some a, none => d.pinyinString.drop a
  | none, some b => d.pinyinString.take b
  | none, none => d.pinyinString

/-- `data.boundary.slice(originalIndices[startIndex], originalIndices[endIndex] + 1)`;
an `undefined` end index makes the slice end `NaN`, i.e. an empty slice. -/
def bSlice (d : SourceMappingData) (startIndex endIndex : Int) : List (Int × Int) :=
  match jsAt? d.originalIndices startIndex, jsAt? d.originalIndices endIndex with
  | some a, some b => (d.boundary.take (b + 1)).drop a
  | some _, none => []
  | none, some b => d.boundary.take (b + 1)
  | none, none => []

/-- The greedy feasibility pass (lines 23-33): earliest not-yet-consumed
position of each query letter, stopping early when the source or the
query runs out. Success means the returned list has the query's length. -/
def greedyPos : List Char → List Char → Nat → List Nat
  | _, [], _ => []
  | [], _ :: _, _ => []
  | c :: cs, t :: ts, i =>
    if c = t then i :: greedyPos cs ts (i + 1)
    else greedyPos cs (t :: ts) (i + 1)

/-- The per-position DP working state entry
`[matched-character-count, matched-letter-count, boundary-start-offset, boundary-end-offset]`. -/
abbrev DpTab := Nat × Nat × Int × Int

def dTabDefault : DpTab := (0, 0, -1, -1)

/-- The three DP arrays, modelled as total functions (the code reads and
writes only indices `0..pinyinLength` / query indices `0..targetLength-1`). -/
structure DpState where
  table : Nat → DpTab
  scores : Nat → Nat
  path : Nat → Nat → Option (Int × Int × Nat)

def dpInit : DpState :=
  ⟨fun _ => dTabDefault, fun _ => 0, fun _ _ => none⟩

/-- The fixed context of one `searchByBoundaryMapping` call: sliced
transliteration, query word, sliced boundary, and the two offsets
`startBoundary`/`endBoundary` taken from `boundary[1]`. -/
structure DpCtx where
  pin : List Char
  tgt : List Char
  bnd : List (Int × Int)
  sB : Int
  eB : Int

/-- Condition `isNewWord` (lines 72-74): the position starts a reading
(`matchedPinyinIndex - 1 === boundary[...][1] - endBoundary`) of a character
different from the recorded one. -/
def jsIsNewWordB (ctx : DpCtx) (mpi : Nat) (pBS : Int) (bm : Int × Int) : Bool :=
  decide ((mpi : Int) - 1 = bm.2 - ctx.eB) && !(decide (pBS = bm.1 - ctx.sB))

/-- Condition `isContinuation` (lines 78-83): a chain is in progress, the
current letter belongs to the same reading as the recorded one, and the
preceding transliteration letter equals the preceding query letter. -/
def jsIsContB (ctx : DpCtx) (j mpi : Nat) (pStr : Nat) (pBE : Int) (bm : Int × Int) : Bool :=
  decide (0 < pStr) && decide (pBE = bm.2 - ctx.eB) &&
    decide (jsAt? ctx.pin ((mpi : Int) - 2) = jsAt? ctx.tgt ((j : Int) - 1))

/-- Condition `isEqual` (line 84). -/
def jsIsEqualB (ctx : DpCtx) (j mpi : Nat) : Bool :=
  decide (jsAt? ctx.pin ((mpi : Int) - 1) = jsAt? ctx.tgt (j : Int))

/-- The acceptance guard of line 87. -/
def jsAcceptB (ctx : DpCtx) (j mpi : Nat) (pStr : Nat) (pBS pBE : Int) (prevScore : Nat)
    (bm : Int × Int) : Bool :=
  jsIsEqualB ctx j mpi && (jsIsNewWordB ctx mpi pBS bm || jsIsContB ctx j mpi pStr pBE bm) &&
    (decide (j = 0) || decide (0 < prevScore))

/-- One inner-loop iteration (lines 59-126) at transliteration position
`mpi` for query letter `j`. The accumulator carries the state plus the
cached pre-sweep `currentDpTableItem`/`currentScore` of lines 52-53/68-69.
`Except.error` marks the JavaScript `TypeError` thrown on an absent
boundary entry. -/
def dpStep (ctx : DpCtx) (P j : Nat) (acc : DpState × DpTab × Nat) (mpi : Nat) :
    Except Unit (DpState × DpTab × Nat) :=
  let st := acc.1
  let prevScore := acc.2.2
  let pStr := acc.2.1.1
  let pLet := acc.2.1.2.1
  let pBS := acc.2.1.2.2.1
  let pBE := acc.2.1.2.2.2
  match jsAt? ctx.bnd (mpi : Int) with
  | none => Except.error ()
  | some bm =>
    let nextTab := st.table mpi
    let nextScore := st.scores mpi
    let isNewWord := jsIsNewWordB ctx mpi pBS bm
    let accept := jsAcceptB ctx j mpi pStr pBS pBE prevScore bm
    let cand := prevScore + pLet * 2 + 1
    if accept && decide (st.scores (mpi - 1) ≤ cand) then
      let origIdx := bm.1 - ctx.sB
      let newMatched := decide (st.scores (mpi - 1) < cand)
      let newCell : Option (Int × Int × Nat) :=
        if newMatched then
          some (origIdx - (pStr : Int) + (if isNewWord then 0 else 1), origIdx, pLet + 1)
        else st.path (mpi - 1) j
      Except.ok (⟨updF st.table mpi
            (pStr + (if isNewWord then 1 else 0), pLet + 1, bm.1 - ctx.sB, bm.2 - ctx.eB),
          updF st.scores mpi cand,
          updF2 st.path mpi j newCell⟩, nextTab, nextScore)
    else
      let scores2 := updF st.scores mpi (st.scores (mpi - 1))
      let path2 := updF2 st.path mpi j (st.path (mpi - 1) j)
      let gap := bm.1 - ctx.sB - (st.table (mpi - 1)).2.2.1
      if gap = 0 then
        Except.ok (⟨updF st.table mpi (st.table (mpi - 1)), scores2, path2⟩, nextTab, nextScore)
      else if decide (mpi < P - 1) && decide (gap = 1) then
        match jsAt? ctx.bnd ((mpi : Int) + 1) with
        | none => Except.error ()
        | some bm1 =>
          Except.ok (⟨updF st.table mpi
              (if bm.1 = bm1.1 then st.table (mpi - 1) else dTabDefault),
            scores2, path2⟩, nextTab, nextScore)
      else
        Except.ok (⟨updF st.table mpi dTabDefault, scores2, path2⟩, nextTab, nextScore)

/-- Folding `dpStep` over a list of positions. -/
def dpFold (ctx : DpCtx) (P j : Nat) : List Nat → DpState × DpTab × Nat →
    Except Unit (DpState × DpTab × Nat)
  | [], acc => Except.ok acc
  | m :: ms, acc =>
    match dpStep ctx P j acc m with
    | Except.error e => Except.error e
    | Except.ok acc2 => dpFold ctx P j ms acc2

/-- One outer-loop iteration (lines 44-127) for query letter `j` whose
greedy anchor is `a`: cache and reset the anchor cell, then run the inner
loop over positions `a+1 .. P`. -/
def dpSweep (ctx : DpCtx) (P j a : Nat) (st : DpState) : Except Unit DpState :=
  let curTab := st.table a
  let curScore := st.scores a
  let st0 : DpState := ⟨updF st.table a dTabDefault, updF st.scores a 0, st.path⟩
  match dpFold ctx P j (List.range' (a + 1) (P - a)) (st0, curTab, curScore) with
  | Except.error e => Except.error e
  | Except.ok acc => Except.ok acc.1

/-- The whole DP phase: one sweep per query letter, in order. -/
def dpRun (ctx : DpCtx) (P : Nat) : List (Nat × Nat) → DpState → Except Unit DpState
  | [], st => Except.ok st
  | ja :: rest, st =>
    match dpSweep ctx P ja.1 ja.2 st with
    | Except.error e => Except.error e
    | Except.ok st2 => dpRun ctx P rest st2

/-- Path reconstruction (lines 131-137): read the cell for query index `i`,
prepend its range shifted by `startIndex`, jump back by the letters it
consumed. A missing cell is the thrown `TypeError` of the destructuring;
the fuel only bounds the loop (each stored cell consumes at least one
letter, so `targetLength` steps always suffice). -/
def backtrack (st : DpState) (P : Nat) (startIndex : Int) : Nat → Int → HitMatrix → JsVal
  | 0, i, acc => if i < 0 then JsVal.matrix acc else JsVal.crash
  | fuel + 1, i, acc =>
    if i < 0 then JsVal.matrix acc
    else
      match st.path P i.toNat with
      | none => JsVal.crash
      | some (s, e, l) =>
        backtrack st P startIndex fuel (i - l) ((s + startIndex, e + startIndex) :: acc)

/-- `searchByBoundaryMapping(data, target, startIndex, endIndex)`
(lines 11-138). -/
def searchByBoundaryMapping (d : SourceMappingData) (target : List Char)
    (startIndex endIndex : Int) : JsVal :=
  let pin := pSlice d startIndex endIndex
  let bnd := bSlice d startIndex endIndex
  let T := target.length
  let P := pin.length
  if target = [] ∨ P < T ∨ d.originalLength = 0 then JsVal.noMatch
  else
    match jsAt? bnd 1 with
    | none => JsVal.crash
    | some b1 =>
      let anchors := greedyPos pin target 0
      if anchors.length < T then JsVal.noMatch
      else
        let ctx : DpCtx := ⟨pin, target, bnd, b1.1, b1.2⟩
        match dpRun ctx P (anchors.enum) dpInit with
        | Except.error _ => JsVal.crash
        | Except.ok st =>
          match st.path P (T - 1) with
          | none => JsVal.noMatch
          | some _ => backtrack st P startIndex T ((T : Int) - 1) []

/-- `searchWithIndexof(source, target)` (lines 166-169): literal search of
the trimmed target, but the returned range uses the untrimmed length. -/
def searchWithIndexof (source target : List Char) : Option HitMatrix :=
  match jsIndexOf? source (jsTrim target) with
  | none => none
  | some i => some [((i : Int), (i : Int) + target.length - 1)]

/-- Modelled from the spec: the external `getRestRanges(totalLength,
claimedRanges)` collaborator of `utils.ts` is not part of the sources;
§6 specifies it as the disjoint inclusive ranges not covered by
`claimedRanges`, sorted left to right, within `[0, totalLength)`.
`claimedAt` tests whether a position is covered by a claimed range. -/
def claimedAt (claimed : HitMatrix) (i : Int) : Bool :=
  claimed.any fun r => decide (r.1 ≤ i) && decide (i ≤ r.2)

/-- Modelled from the spec: walk positions `0 .. L-1` collecting maximal
runs of unclaimed positions (`openS` is the start of the current run). -/
def restAux (claimed : HitMatrix) (L : Nat) : Nat → Nat → Option Int → HitMatrix
  | _, 0, openS =>
    match openS with
    | some s => [(s, (L : Int) - 1)]
    | none => []
  | i, rem + 1, openS =>
    if claimedAt claimed i then
      match openS with
      | some s => (s, (i : Int) - 1) :: restAux claimed L (i + 1) rem none
      | none => restAux claimed L (i + 1) rem none
    else
      restAux claimed L (i + 1) rem
        (match openS with
         | some s => some s
         | none => some (i : Int))

/-- Modelled from the spec: `getRestRanges` itself. -/
def getRestRanges (L : Nat) (claimed : HitMatrix) : HitMatrix :=
  restAux claimed L 0 L none

/-- The scan over the remaining ranges for one word (lines 152-159):
first range on which the matcher hits, propagating a thrown exception. -/
def tryRanges (d : SourceMappingData) (w : List Char) : HitMatrix → Except Unit (Option HitMatrix)
  | [] => Except.ok none
  | r :: rs =>
    match searchByBoundaryMapping d w r.1 r.2 with
    | JsVal.crash => Except.error ()
    | JsVal.matrix m => Except.ok (some m)
    | JsVal.noMatch => tryRanges d w rs

/-- The word loop of `searchSentenceByBoundaryMapping` (lines 147-163). -/
def wordsLoop (d : SourceMappingData) : List (List Char) → HitMatrix → JsVal
  | [], acc => JsVal.matrix acc
  | w :: ws, acc =>
    let rest := getRestRanges d.originalLength acc
    if rest = [] then JsVal.noMatch
    else
      match tryRanges d w rest with
      | Except.error _ => JsVal.crash
      | Except.ok none => JsVal.noMatch
      | Except.ok (some m) => wordsLoop d ws (acc ++ m)

/-- `searchSentenceByBoundaryMapping(boundaryMapping, sentence)`
(lines 140-164). -/
def searchSentenceByBoundaryMapping (d : SourceMappingData) (sentence : List Char) : JsVal :=
  if sentence = [] then JsVal.noMatch
  else
    match searchWithIndexof d.originalString sentence with
    | some m => JsVal.matrix m
    | none => wordsLoop d (splitWS (jsTrim sentence)) []

/-- `searchEntry(source, target, getBoundaryMapping)` (lines 171-173). -/
def searchEntry (source target : List Char) (g : List Char → SourceMappingData) : JsVal :=
  match searchWithIndexof source target with
  | some m => JsVal.matrix m
  | none => searchSentenceByBoundaryMapping (g source) target

/-- The original character a transliteration letter position belongs to:
the number of characters whose transliteration ends at or before it. -/
def charOf (d : SourceMappingData) (j : Nat) : Nat :=
  ((List.range d.originalLength).filter fun c => d.originalIndices.getD (c + 1) 0 ≤ j).length

/-- Modelled from the spec: the §3 alignment invariants of a
`SourceMappingData` produced by the external BoundaryMap collaborator
(`extractBoundaryMapping`, not part of the sources): consistent lengths,
`originalIndices` monotone from `0` to the transliteration length,
boundary entry `m` names the character that letter `m - 1` belongs to,
and letters of one reading (equal second components) belong to one
character. -/
def wellFormedB (d : SourceMappingData) : Bool :=
  d.originalLength == d.originalString.length &&
  d.originalIndices.length == d.originalLength + 1 &&
  d.boundary.length == d.pinyinString.length + 1 &&
  d.originalIndices.getD 0 1 == 0 &&
  d.originalIndices.getD d.originalLength 0 == d.pinyinString.length &&
  ((List.range d.originalLength).all fun c =>
    d.originalIndices.getD c 0 ≤ d.originalIndices.getD (c + 1) 0) &&
  ((List.range d.pinyinString.length).all fun m =>
    (d.boundary.getD (m + 1) (0, 0)).1 == (charOf d m : Int)) &&
  ((List.range d.pinyinString.length).all fun m =>
    (List.range d.pinyinString.length).all fun m2 =>
      !((d.boundary.getD (m + 1) (0, 0)).2 == (d.boundary.getD (m2 + 1) (0, 0)).2) ||
        ((d.boundary.getD (m + 1) (0, 0)).1 == (d.boundary.getD (m2 + 1) (0, 0)).1))

/-- Identity transliteration: every character is its own one-letter
reading (the shape BoundaryMap produces for pure Latin text). -/
def identityData (l : List Char) : SourceMappingData :=
  ⟨l, l.length, l, (0, 0) :: (List.range l.length).map (fun i => ((i : Int), (i : Int))),
    List.range (l.length + 1)⟩

/-- Fixture: two characters `的` (readings `de` and `di`) and `好`
(reading `hao`), with the boundary layout described in the comment at
line 71 of `search.ts` (second component identifies the reading). -/
def dedi2 : SourceMappingData :=
  ⟨['的', '好'], 2, "dedihao".toList,
    [(0, 0), (0, 0), (0, 0), (0, 2), (0, 2), (1, 4), (1, 4), (1, 4)], [0, 4, 7]⟩

/-- Boundary entry accessor used by the invariant statements (total via a
default; all uses are within the slice, where it agrees with `jsAt?`). -/
def bmf (ctx : DpCtx) (m : Nat) : Int × Int :=
  ctx.bnd.getD m (0, 0)

/-- Facts about the sliced context that hold when the data is well formed
and the requested sub-range is valid: slice lengths, and the boundary
entries' character components being in range, monotone, and determined by
the reading component. -/
structure CtxOK (ctx : DpCtx) (P : Nat) (relMax : Int) : Prop where
  pinLen : ctx.pin.length = P
  bndLen : ctx.bnd.length = P + 1
  lo : ∀ m, 1 ≤ m → m ≤ P → 0 ≤ (bmf ctx m).1 - ctx.sB
  hi : ∀ m, 1 ≤ m → m ≤ P → (bmf ctx m).1 - ctx.sB ≤ relMax
  mono : ∀ m m2, 1 ≤ m → m ≤ m2 → m2 ≤ P → (bmf ctx m).1 ≤ (bmf ctx m2).1
  inj : ∀ m m2, 1 ≤ m → m ≤ P → 1 ≤ m2 → m2 ≤ P →
    (bmf ctx m).2 = (bmf ctx m2).2 → (bmf ctx m).1 = (bmf ctx m2).1

/-- Invariant of a stored path cell `(s, e, l)` for query-letter column
`j`: it consumes at least one and at most `j + 1` letters, its range is
within bounds, and unless it covers the whole prefix the cell for the
remaining prefix is present at the last position `P` of the frozen
column `j - l`. -/
def cellOK (pathP : Nat → Option (Int × Int × Nat)) (relMax : Int) (j : Nat)
    (c : Int × Int × Nat) : Prop :=
  1 ≤ c.2.2 ∧ c.2.2 ≤ j + 1 ∧ 0 ≤ c.1 ∧ c.1 ≤ c.2.1 ∧ c.2.1 ≤ relMax ∧
    (c.2.2 = j + 1 ∨ (pathP (j - c.2.2)).isSome = true)

/-- Invariant of a DP table entry at position `p` after `n` completed
sweeps: either the virgin default, or a live chain whose recorded
boundary offsets come from an actual boundary entry at or before `p`,
whose character count is bounded by its character offset, and whose
letter count connects to a frozen path column. -/
def tabOK (ctx : DpCtx) (P : Nat) (relMax : Int) (pathP : Nat → Option (Int × Int × Nat))
    (n p : Nat) (tv : DpTab) : Prop :=
  tv = dTabDefault ∨
    (1 ≤ tv.1 ∧ 1 ≤ tv.2.1 ∧ tv.2.1 ≤ n ∧ (tv.1 : Int) ≤ tv.2.2.1 + 1 ∧
      (∃ m, 1 ≤ m ∧ m ≤ p ∧ m ≤ P ∧ tv.2.2.1 = (bmf ctx m).1 - ctx.sB ∧
        tv.2.2.2 = (bmf ctx m).2 - ctx.eB) ∧
      (tv.2.1 = n ∨ (pathP (n - 1 - tv.2.1)).isSome = true))

/-- Invariant of the whole DP state after `n` completed sweeps whose last
anchor was `lo`: all stored path cells are sound, columns not yet swept
are empty, table entries at positions refreshed by the last sweep are
sound, and a positive score guarantees a full path for the last swept
column at the final position. -/
def StOK (ctx : DpCtx) (P : Nat) (relMax : Int) (n lo : Nat) (st : DpState) : Prop :=
  (∀ p j2 c, j2 < n → st.path p j2 = some c →
    cellOK (fun j3 => st.path P j3) relMax j2 c) ∧
  (∀ p j2, n ≤ j2 → st.path p j2 = none) ∧
  (∀ p, lo ≤ p → p ≤ P → tabOK ctx P relMax (fun j3 => st.path P j3) n p (st.table p)) ∧
  (∀ p, lo ≤ p → p ≤ P → 0 < st.scores p → 1 ≤ n ∧ (st.path P (n - 1)).isSome = true)

/-- Invariant carried through one inner sweep for query letter `n` with
anchor `a`: the cache holds the pre-sweep values at the previous position,
positions not yet processed still hold their pre-sweep values, other path
columns are untouched, the anchor cell is reset, and all processed
positions satisfy the post-sweep facts (sound cells and tables, positive
scores witnessed by cells, and cell presence propagating rightward). -/
def SweepInv (ctx : DpCtx) (P : Nat) (relMax : Int) (n a : Nat) (pre : DpState)
    (q : Nat) (acc : DpState × DpTab × Nat) : Prop :=
  acc.2.1 = pre.table (q - 1) ∧
  acc.2.2 = pre.scores (q - 1) ∧
  (∀ p, q ≤ p → acc.1.table p = pre.table p ∧ acc.1.scores p = pre.scores p) ∧
  (∀ p j2, j2 ≠ n → acc.1.path p j2 = pre.path p j2) ∧
  acc.1.table a = dTabDefault ∧
  acc.1.scores a = 0 ∧
  (∀ p, p ≤ a ∨ P < p → acc.1.path p n = pre.path p n) ∧
  (∀ p c, a ≤ p → p < q → acc.1.path p n = some c →
    cellOK (fun j3 => acc.1.path P j3) relMax n c) ∧
  (∀ p, a ≤ p → p < q →
    tabOK ctx P relMax (fun j3 => acc.1.path P j3) (n + 1) p (acc.1.table p)) ∧
  (∀ p, a ≤ p → p < q → 0 < acc.1.scores p → (acc.1.path p n).isSome = true) ∧
  (∀ p, a ≤ p → p + 1 < q → (acc.1.path p n).isSome = true →
    (acc.1.path (p + 1) n).isSome = true)

/-- The shape of the `(query letter, anchor)` list built from the greedy
anchors: indices count up from `n`, anchors stay at or after `lo` and
before `P`. -/
def AnchorsOK (P : Nat) : Nat → Nat → List (Nat × Nat) → Prop
  | _, _, [] => True
  | n, lo, ja :: rest =>
    ja.1 = n ∧ lo ≤ ja.2 ∧ ja.2 < P ∧ AnchorsOK P (n + 1) ja.2 rest

/-- Fixture: the sliced context `searchByBoundaryMapping dedi2 "de" 0 1`
builds (transliteration `dedi`, both offsets `0`). -/
def ctxDedi : DpCtx :=
  ⟨"dedi".toList, "de".toList, [(0, 0), (0, 0), (0, 0), (0, 2), (0, 2)], 0, 0⟩

/-! ## Basic lemmas -/

theorem updF_same (f : Nat → α) (i : Nat) (v : α) : updF f i v i = v := by
  simp [updF]

theorem updF_other (f : Nat → α) (i k : Nat) (v : α) (h : k ≠ i) : updF f i v k = f k := by
  simp [updF, h]

theorem updF2_same (f : Nat → Nat → α) (i j : Nat) (v : α) : updF2 f i j v i j = v := by
  simp [updF2]

theorem updF2_other (f : Nat → Nat → α) (i j k l : Nat) (v : α) (h : ¬(k = i ∧ l = j)) :
    updF2 f i j v k l = f k l := by
  simp only [updF2, if_neg h]

theorem jsAt?_eq_getD (xs : List α) (dflt : α) (m : Nat) (h : m < xs.length) :
    jsAt? xs (m : Int) = some (xs.getD m dflt) := by
  simp only [jsAt?, Int.toNat_natCast]
  rw [dif_pos ⟨Int.natCast_nonneg m, h⟩, List.getD_eq_getElem, List.get_eq_getElem]

theorem jsAt?_neg (xs : List α) (i : Int) (h : i < 0) : jsAt? xs i = none := by
  simp only [jsAt?]
  rw [dif_neg]
  intro hc
  exact absurd hc.1 (not_le.mpr h)

theorem jsAt?_ge (xs : List α) (i : Int) (h : xs.length ≤ i.toNat) : jsAt? xs i = none := by
  simp only [jsAt?]
  rw [dif_neg]
  intro hc
  exact absurd hc.2 (not_lt.mpr h)

/-! ## C2 and C8: concrete behaviour -/

/-- C2: the claim that blank queries yield no-match fails on the code.
`searchEntry` on the empty query returns the degenerate range `[0, -1]`
(because `indexOf("")` is `0`, which the `~` test treats as found), a
whitespace-only query returns `[0, 0]` for the same reason, and only the
strictly empty sentence reaches the early no-match return of
`searchSentenceByBoundaryMapping`. -/
theorem claim2_blank_query_bug :
    searchEntry ("abc".toList) [] (fun _ => identityData []) = JsVal.matrix [(0, -1)] ∧
    searchSentenceByBoundaryMapping (identityData ("ab".toList)) (" ".toList) =
      JsVal.matrix [(0, 0)] ∧
    searchSentenceByBoundaryMapping (identityData ("ab".toList)) [] = JsVal.noMatch :=
  ⟨rfl, rfl, rfl⟩

/-- C8: for source `"no_node"` under the identity transliteration and query
`"nod"`, both the sentence-level search (through its literal fast path) and
a direct boundary-mapping search over the full sub-range return the single
contiguous range `[3, 5]`, the `"nod"` inside `"node"`, rather than a
fragmented placement using the earlier `"no"`. -/
theorem claim8_no_node_prefers_contiguous :
    searchSentenceByBoundaryMapping (identityData ("no_node".toList)) ("nod".toList) =
      JsVal.matrix [(3, 5)] ∧
    searchByBoundaryMapping (identityData ("no_node".toList)) ("nod".toList) 0 6 =
      JsVal.matrix [(3, 5)] :=
  ⟨rfl, rfl⟩

/-! ## Characterizing one DP step -/

theorem dpStep_accept_eq (ctx : DpCtx) (P j mpi : Nat) (st : DpState) (tab : DpTab)
    (prevScore : Nat) (bm : Int × Int)
    (hbm : jsAt? ctx.bnd (mpi : Int) = some bm)
    (hand : (jsAcceptB ctx j mpi tab.1 tab.2.2.1 tab.2.2.2 prevScore bm &&
      decide (st.scores (mpi - 1) ≤ prevScore + tab.2.1 * 2 + 1)) = true) :
    dpStep ctx P j (st, tab, prevScore) mpi = Except.ok
      (⟨updF st.table mpi (tab.1 + (if jsIsNewWordB ctx mpi tab.2.2.1 bm then 1 else 0),
          tab.2.1 + 1, bm.1 - ctx.sB, bm.2 - ctx.eB),
        updF st.scores mpi (prevScore + tab.2.1 * 2 + 1),
        updF2 st.path mpi j
          (if decide (st.scores (mpi - 1) < prevScore + tab.2.1 * 2 + 1) = true then
            some (bm.1 - ctx.sB - (tab.1 : Int) +
              (if jsIsNewWordB ctx mpi tab.2.2.1 bm then 0 else 1), bm.1 - ctx.sB, tab.2.1 + 1)
          else st.path (mpi - 1) j)⟩,
       st.table mpi, st.scores mpi) := by
  simp only [dpStep, hbm]
  rw [if_pos hand]

theorem dpStep_reject_parts (ctx : DpCtx) (P j mpi : Nat) (st : DpState) (tab : DpTab)
    (prevScore : Nat) (bm : Int × Int)
    (hbm : jsAt? ctx.bnd (mpi : Int) = some bm)
    (hand : (jsAcceptB ctx j mpi tab.1 tab.2.2.1 tab.2.2.2 prevScore bm &&
      decide (st.scores (mpi - 1) ≤ prevScore + tab.2.1 * 2 + 1)) = false)
    (out : DpState × DpTab × Nat)
    (hout : dpStep ctx P j (st, tab, prevScore) mpi = Except.ok out) :
    out.1.scores = updF st.scores mpi (st.scores (mpi - 1)) ∧
    out.1.path = updF2 st.path mpi j (st.path (mpi - 1) j) ∧
    (out.1.table = updF st.table mpi (st.table (mpi - 1)) ∨
      out.1.table = updF st.table mpi dTabDefault) ∧
    out.2 = (st.table mpi, st.scores mpi) := by
  simp only [dpStep, hbm] at hout
  rw [if_neg (by simp [hand])] at hout
  by_cases hg : bm.1 - ctx.sB - (st.table (mpi - 1)).2.2.1 = 0
  · rw [if_pos hg] at hout
    cases hout
    exact ⟨rfl, rfl, Or.inl rfl, rfl⟩
  · rw [if_neg hg] at hout
    by_cases hw : (decide (mpi < P - 1) && decide (bm.1 - ctx.sB - (st.table (mpi - 1)).2.2.1 = 1)) = true
    · rw [if_pos hw] at hout
      cases hbm1 : jsAt? ctx.bnd ((mpi : Int) + 1) with
      | none => rw [hbm1] at hout; cases hout
      | some bm1 =>
        rw [hbm1] at hout
        cases hout
        refine ⟨rfl, rfl, ?_, rfl⟩
        by_cases hsw : bm.1 = bm1.1
        · rw [if_pos hsw]; exact Or.inl rfl
        · rw [if_neg hsw]; exact Or.inr rfl
    · rw [if_neg hw] at hout
      cases hout
      exact ⟨rfl, rfl, Or.inr rfl, rfl⟩

/-! ## C5, C6, C7: local properties of the scoring DP -/

/-- C5: when the acceptance guard of line 87 holds and the candidate is
recorded, the new score is the predecessor's running score plus
`2 × predecessor matched-letter-count + 1` (line 88); and for query-letter
index greater than zero the guard itself requires the predecessor's
running score to be strictly positive. -/
theorem claim5_score_formula (ctx : DpCtx) (P j mpi : Nat) (st : DpState) (tab : DpTab)
    (prevScore : Nat) (bm : Int × Int)
    (hbm : jsAt? ctx.bnd (mpi : Int) = some bm)
    (hacc : jsAcceptB ctx j mpi tab.1 tab.2.2.1 tab.2.2.2 prevScore bm = true)
    (hge : st.scores (mpi - 1) ≤ prevScore + tab.2.1 * 2 + 1) :
    (∃ out, dpStep ctx P j (st, tab, prevScore) mpi = Except.ok out ∧
      out.1.scores mpi = prevScore + (2 * tab.2.1 + 1)) ∧
    (j ≠ 0 → 0 < prevScore) := by
  constructor
  · refine ⟨_, dpStep_accept_eq ctx P j mpi st tab prevScore bm hbm
      (by rw [hacc, decide_eq_true hge]; rfl), ?_⟩
    show updF st.scores mpi (prevScore + tab.2.1 * 2 + 1) mpi = _
    rw [updF_same]
    omega
  · intro hj
    have h3 : (decide (j = 0) || decide (0 < prevScore)) = true := by
      simp only [jsAcceptB, Bool.and_eq_true] at hacc
      exact hacc.2
    simp only [Bool.or_eq_true, decide_eq_true_eq] at h3
    rcases h3 with h | h
    · exact absurd h hj
    · exact h

/-- C6: at each DP position the recorded score is overwritten by the
candidate exactly when the guard holds and the candidate is at least the
score carried from the previous position (line 92); the backtracking path
cell receives the freshly built cell only when the candidate is strictly
greater (lines 104-109), and otherwise — in particular on ties — keeps
the path found earlier at the previous position. -/
theorem claim6_overwrite_policy (ctx : DpCtx) (P j mpi : Nat) (st : DpState) (tab : DpTab)
    (prevScore : Nat) (bm : Int × Int)
    (hbm : jsAt? ctx.bnd (mpi : Int) = some bm)
    (out : DpState × DpTab × Nat)
    (hout : dpStep ctx P j (st, tab, prevScore) mpi = Except.ok out) :
    out.1.scores mpi =
      (if jsAcceptB ctx j mpi tab.1 tab.2.2.1 tab.2.2.2 prevScore bm = true ∧
          st.scores (mpi - 1) ≤ prevScore + tab.2.1 * 2 + 1
        then prevScore + tab.2.1 * 2 + 1 else st.scores (mpi - 1)) ∧
    out.1.path mpi j =
      (if jsAcceptB ctx j mpi tab.1 tab.2.2.1 tab.2.2.2 prevScore bm = true ∧
          st.scores (mpi - 1) < prevScore + tab.2.1 * 2 + 1
        then some (bm.1 - ctx.sB - (tab.1 : Int) +
            (if jsIsNewWordB ctx mpi tab.2.2.1 bm then 0 else 1), bm.1 - ctx.sB, tab.2.1 + 1)
        else st.path (mpi - 1) j) := by
  by_cases hacc : jsAcceptB ctx j mpi tab.1 tab.2.2.1 tab.2.2.2 prevScore bm = true
  · by_cases hge : st.scores (mpi - 1) ≤ prevScore + tab.2.1 * 2 + 1
    · rw [dpStep_accept_eq ctx P j mpi st tab prevScore bm hbm
        (by rw [hacc, decide_eq_true hge]; rfl)] at hout
      cases hout
      constructor
      · show updF st.scores mpi (prevScore + tab.2.1 * 2 + 1) mpi = _
        rw [updF_same, if_pos ⟨hacc, hge⟩]
      · show updF2 st.path mpi j _ mpi j = _
        rw [updF2_same]
        by_cases hlt : st.scores (mpi - 1) < prevScore + tab.2.1 * 2 + 1
        · rw [if_pos (decide_eq_true hlt)]
          exact (if_pos ⟨hacc, hlt⟩).symm
        · rw [if_neg (fun hc => hlt (of_decide_eq_true hc))]
          exact (if_neg (fun hc => hlt hc.2)).symm
    · have hand : (jsAcceptB ctx j mpi tab.1 tab.2.2.1 tab.2.2.2 prevScore bm &&
          decide (st.scores (mpi - 1) ≤ prevScore + tab.2.1 * 2 + 1)) = false := by
        rw [hacc]
        simpa using hge
      obtain ⟨hs, hp, -, -⟩ :=
        dpStep_reject_parts ctx P j mpi st tab prevScore bm hbm hand out hout
      constructor
      · rw [hs, updF_same, if_neg (fun hc => hge hc.2)]
      · rw [hp, updF2_same, if_neg (fun hc => hge (le_of_lt hc.2))]
  · have hand : (jsAcceptB ctx j mpi tab.1 tab.2.2.1 tab.2.2.2 prevScore bm &&
        decide (st.scores (mpi - 1) ≤ prevScore + tab.2.1 * 2 + 1)) = false := by
      rw [Bool.eq_false_iff.mpr hacc]
      rfl
    obtain ⟨hs, hp, -, -⟩ :=
      dpStep_reject_parts ctx P j mpi st tab prevScore bm hbm hand out hout
    constructor
    · rw [hs, updF_same, if_neg (fun hc => hacc hc.1)]
    · rw [hp, updF2_same, if_neg (fun hc => hacc hc.1)]

/-- C7: if an accepted step lands on a letter of the same character as the
recorded chain (so it is not a new word), the guard forces it to be a
continuation: the letter's reading identifier equals the recorded one —
a match can never switch to a competing reading of the same character —
and the chain is non-empty with consecutive letters agreeing. -/
theorem claim7_no_reading_switch (ctx : DpCtx) (j mpi : Nat) (pStr : Nat) (pBS pBE : Int)
    (prevScore : Nat) (bm : Int × Int)
    (hacc : jsAcceptB ctx j mpi pStr pBS pBE prevScore bm = true)
    (hsame : bm.1 - ctx.sB = pBS) :
    bm.2 - ctx.eB = pBE ∧ 0 < pStr ∧
      jsAt? ctx.pin ((mpi : Int) - 2) = jsAt? ctx.tgt ((j : Int) - 1) := by
  simp only [jsAcceptB, Bool.and_eq_true, Bool.or_eq_true] at hacc
  obtain ⟨⟨-, hor⟩, -⟩ := hacc
  rcases hor with hnw | hcont
  · simp only [jsIsNewWordB, Bool.and_eq_true, Bool.not_eq_true', decide_eq_false_iff_not]
      at hnw
    exact absurd hsame.symm hnw.2
  · simp only [jsIsContB, Bool.and_eq_true, decide_eq_true_eq] at hcont
    exact ⟨hcont.1.2.symm, hcont.1.1, hcont.2⟩

/-- Witness for C5 at a concrete accepted continuation step
(`dedi` context, second letter of query `de`). -/
theorem claim5_witness :
    (∃ out, dpStep ctxDedi 4 1 (dpInit, ((1 : Nat), (1 : Nat), (0 : Int), (0 : Int)), 1) 2 =
        Except.ok out ∧ out.1.scores 2 = 1 + (2 * 1 + 1)) ∧
    ((1 : Nat) ≠ 0 → 0 < 1) :=
  claim5_score_formula ctxDedi 4 1 2 dpInit (1, 1, 0, 0) 1 (0, 0)
    (by decide) (by decide) (by decide)

/-- Witness for C6 at the same concrete step: the tie-free candidate `4`
overwrites the carried score `0` and installs the new path cell. -/
theorem claim6_witness :
    ∃ out, dpStep ctxDedi 4 1 (dpInit, ((1 : Nat), (1 : Nat), (0 : Int), (0 : Int)), 1) 2 =
        Except.ok out ∧ out.1.scores 2 = 4 ∧ out.1.path 2 1 = some (0, 0, 2) := by
  have hout := dpStep_accept_eq ctxDedi 4 1 2 dpInit (1, 1, 0, 0) 1 (0, 0)
    (by decide) (by decide)
  have h := claim6_overwrite_policy ctxDedi 4 1 2 dpInit (1, 1, 0, 0) 1 (0, 0)
    (by decide) _ hout
  refine ⟨_, hout, ?_, ?_⟩
  · rw [h.1]
    decide
  · rw [h.2]
    decide

/-- Witness for C7 at the same concrete step (same character `的`,
reading `de` in progress). -/
theorem claim7_witness :
    (0 : Int) - ctxDedi.eB = 0 ∧ 0 < 1 ∧
      jsAt? ctxDedi.pin ((2 : Nat) - 2 : Int) = jsAt? ctxDedi.tgt ((1 : Nat) - 1 : Int) :=
  claim7_no_reading_switch ctxDedi 1 2 1 0 0 1 (0, 0) (by decide) (by decide)

/-! ## Literal search: `indexOf` facts -/

theorem jsIndexOfAux_shift (t s : List Char) : ∀ i : Nat,
    jsIndexOfAux t s i = (jsIndexOfAux t s 0).map (· + i) := by
  induction s with
  | nil =>
    intro i
    by_cases hp : t.isPrefixOf [] = true <;> simp [jsIndexOfAux, hp]
  | cons c s2 ih =>
    intro i
    by_cases hp : t.isPrefixOf (c :: s2) = true
    · simp [jsIndexOfAux, hp]
    · rw [show jsIndexOfAux t (c :: s2) i = jsIndexOfAux t s2 (i + 1) from by
          simp [jsIndexOfAux, hp],
        show jsIndexOfAux t (c :: s2) 0 = jsIndexOfAux t s2 1 from by
          simp [jsIndexOfAux, hp],
        ih (i + 1), ih 1]
      cases jsIndexOfAux t s2 0 <;> simp <;> omega

theorem jsIndexOf?_some (s t : List Char) : ∀ j : Nat, jsIndexOf? s t = some j →
    t.isPrefixOf (s.drop j) = true ∧ ∀ k, k < j → t.isPrefixOf (s.drop k) = false := by
  induction s with
  | nil =>
    intro j h
    by_cases hp : t.isPrefixOf [] = true
    · simp only [jsIndexOf?, jsIndexOfAux, hp, if_true, Option.some.injEq] at h
      subst h
      exact ⟨hp, fun k hk => absurd hk (Nat.not_lt_zero k)⟩
    · simp [jsIndexOf?, jsIndexOfAux, hp] at h
  | cons c s2 ih =>
    intro j h
    by_cases hp : t.isPrefixOf (c :: s2) = true
    · simp only [jsIndexOf?, jsIndexOfAux, hp, if_true, Option.some.injEq] at h
      subst h
      exact ⟨hp, fun k hk => absurd hk (Nat.not_lt_zero k)⟩
    · rw [show jsIndexOf? (c :: s2) t = jsIndexOfAux t s2 1 from by
          simp [jsIndexOf?, jsIndexOfAux, hp], jsIndexOfAux_shift] at h
      cases h2 : jsIndexOfAux t s2 0 with
      | none => rw [h2] at h; simp at h
      | some j2 =>
        rw [h2] at h
        simp only [Option.map_some', Option.some.injEq] at h
        subst h
        obtain ⟨hpre, hmin⟩ := ih j2 h2
        refine ⟨by simpa using hpre, ?_⟩
        intro k hk
        cases k with
        | zero => simpa using Bool.eq_false_iff.mpr hp
        | succ k2 =>
          rw [List.drop_succ_cons]
          exact hmin k2 (by omega)

theorem jsIndexOf?_of_occurs (s t : List Char) : ∀ k : Nat,
    t.isPrefixOf (s.drop k) = true → ∃ j, jsIndexOf? s t = some j ∧ j ≤ k := by
  induction s with
  | nil =>
    intro k h
    rw [List.drop_nil] at h
    exact ⟨0, by simp [jsIndexOf?, jsIndexOfAux, h], Nat.zero_le k⟩
  | cons c s2 ih =>
    intro k h
    by_cases hp : t.isPrefixOf (c :: s2) = true
    · exact ⟨0, by simp [jsIndexOf?, jsIndexOfAux, hp], Nat.zero_le k⟩
    · cases k with
      | zero => exact absurd (by simpa using h) hp
      | succ k2 =>
        rw [List.drop_succ_cons] at h
        obtain ⟨j2, hj2, hle⟩ := ih k2 h
        refine ⟨j2 + 1, ?_, by omega⟩
        rw [show jsIndexOf? (c :: s2) t = jsIndexOfAux t s2 1 from by
          simp [jsIndexOf?, jsIndexOfAux, hp], jsIndexOfAux_shift,
          show jsIndexOfAux t s2 0 = some j2 from hj2]
        rfl

/-! ## C1: literal fast path -/

/-- C1 counterexample: for source `"ab a"` and query `" a"` (a literal
contiguous substring whose leftmost occurrence starts at index 2), the
code trims the query before `indexOf` but keeps the untrimmed length, so
it returns `[0, 1]` — which is not the span `[2, 3]` of the leftmost
occurrence of the query. -/
theorem claim1_counterexample :
    searchEntry ("ab a".toList) (" a".toList) (fun _ => identityData []) =
      JsVal.matrix [(0, 1)] ∧
    (" a".toList).isPrefixOf (("ab a".toList).drop 2) = true ∧
    (∀ k, k < 2 → (" a".toList).isPrefixOf (("ab a".toList).drop k) = false) ∧
    ((0 : Int), (1 : Int)) ≠ ((2 : Int), (2 : Int) + (" a".toList).length - 1) := by
  refine ⟨rfl, rfl, ?_, by decide⟩
  decide

/-- C1 (amended): for every non-empty query that equals its own trim and
occurs literally in the source, `searchEntry` returns — for every
boundary-map provider — the single range spanning the query's leftmost
occurrence. (As stated, the claim fails for queries with surrounding
whitespace, which are trimmed before `indexOf` but keep their untrimmed
length in the returned range.) -/
theorem claim1_literal_leftmost (source target : List Char)
    (g : List Char → SourceMappingData)
    (hne : target ≠ []) (htrim : jsTrim target = target) (k : Nat)
    (hocc : target.isPrefixOf (source.drop k) = true) :
    ∃ i : Nat, searchEntry source target g =
        JsVal.matrix [((i : Int), (i : Int) + target.length - 1)] ∧
      target.isPrefixOf (source.drop i) = true ∧
      ∀ k2, k2 < i → target.isPrefixOf (source.drop k2) = false := by
  obtain ⟨j, hj, -⟩ := jsIndexOf?_of_occurs source target k hocc
  obtain ⟨hpre, hmin⟩ := jsIndexOf?_some source target j hj
  refine ⟨j, ?_, hpre, hmin⟩
  unfold searchEntry searchWithIndexof
  rw [htrim, hj]

/-- Witness for C1: query `"ab"` occurs in `"xaby"` at index 1 only. -/
theorem claim1_witness :
    ∃ i : Nat, searchEntry ("xaby".toList) ("ab".toList) (fun _ => identityData []) =
        JsVal.matrix [((i : Int), (i : Int) + ("ab".toList).length - 1)] ∧
      ("ab".toList).isPrefixOf (("xaby".toList).drop i) = true ∧
      ∀ k2, k2 < i → ("ab".toList).isPrefixOf (("xaby".toList).drop k2) = false :=
  claim1_literal_leftmost ("xaby".toList) ("ab".toList) (fun _ => identityData [])
    (by decide) (by decide) 1 (by decide)

/-! ## Facts extracted from well-formedness -/

theorem wellFormed_facts (d : SourceMappingData) (hwf : wellFormedB d = true) :
    d.originalLength = d.originalString.length ∧
    d.originalIndices.length = d.originalLength + 1 ∧
    d.boundary.length = d.pinyinString.length + 1 ∧
    d.originalIndices.getD 0 1 = 0 ∧
    d.originalIndices.getD d.originalLength 0 = d.pinyinString.length ∧
    (∀ c, c < d.originalLength →
      d.originalIndices.getD c 0 ≤ d.originalIndices.getD (c + 1) 0) ∧
    (∀ m, m < d.pinyinString.length →
      (d.boundary.getD (m + 1) (0, 0)).1 = (charOf d m : Int)) ∧
    (∀ m m2, m < d.pinyinString.length → m2 < d.pinyinString.length →
      (d.boundary.getD (m + 1) (0, 0)).2 = (d.boundary.getD (m2 + 1) (0, 0)).2 →
      (d.boundary.getD (m + 1) (0, 0)).1 = (d.boundary.getD (m2 + 1) (0, 0)).1) := by
  simp only [wellFormedB, Bool.and_eq_true, beq_iff_eq, List.all_eq_true, List.mem_range,
    decide_eq_true_eq, Bool.or_eq_true, Bool.not_eq_true', beq_eq_false_iff_ne, ne_eq] at hwf
  obtain ⟨⟨⟨⟨⟨⟨⟨h1, h2⟩, h3⟩, h4⟩, h5⟩, h6⟩, h7⟩, h8⟩ := hwf
  refine ⟨h1, h2, h3, h4, h5, h6, h7, ?_⟩
  intro m m2 hm hm2 heq
  rcases h8 m hm m2 hm2 with h | h
  · exact absurd heq h
  · exact h

theorem oi_mono (d : SourceMappingData) (hwf : wellFormedB d = true) :
    ∀ a b : Nat, a ≤ b → b ≤ d.originalLength →
      d.originalIndices.getD a 0 ≤ d.originalIndices.getD b 0 := by
  obtain ⟨-, -, -, -, -, hadj, -, -⟩ := wellFormed_facts d hwf
  intro a b hab hbL
  induction b with
  | zero =>
    have ha : a = 0 := by omega
    subst ha
    exact le_refl _
  | succ b2 ih =>
    rcases Nat.lt_or_ge a (b2 + 1) with h | h
    · exact le_trans (ih (by omega) (by omega)) (hadj b2 (by omega))
    · have ha : a = b2 + 1 := by omega
      subst ha
      exact le_refl _

theorem charOf_mono (d : SourceMappingData) (j j2 : Nat) (h : j ≤ j2) :
    charOf d j ≤ charOf d j2 := by
  unfold charOf
  exact (List.monotone_filter_right _ fun c hc =>
    decide_eq_true (le_trans (of_decide_eq_true hc) h)).length_le

theorem countP_lt_range (L k : Nat) :
    List.countP (fun c => decide (c < k)) (List.range L) = min L k := by
  induction L with
  | zero => simp
  | succ L2 ih =>
    rw [List.range_succ, List.countP_append, ih]
    by_cases hk : L2 < k
    · simp [hk]
      omega
    · simp [hk]
      omega

theorem charOf_ge (d : SourceMappingData) (hwf : wellFormedB d = true) (sN j : Nat)
    (hs : sN ≤ d.originalLength)
    (hj : d.originalIndices.getD sN 0 ≤ j) : sN ≤ charOf d j := by
  obtain ⟨-, hoiLen, -, -, -, -, -, -⟩ := wellFormed_facts d hwf
  have hsub : List.Sublist (List.range sN) (List.range d.originalLength) :=
    List.range_sublist.mpr hs
  have hall : List.countP (fun c => decide (d.originalIndices.getD (c + 1) 0 ≤ j))
      (List.range sN) = sN := by
    conv_rhs => rw [← List.length_range sN]
    refine List.countP_eq_length.mpr ?_
    intro c hc
    rw [List.mem_range] at hc
    exact decide_eq_true (le_trans (oi_mono d hwf (c + 1) sN (by omega) hs) hj)
  calc sN = _ := hall.symm
    _ ≤ _ := hsub.countP_le _
    _ = charOf d j := by
      unfold charOf
      rw [List.countP_eq_length_filter]

theorem charOf_le (d : SourceMappingData) (hwf : wellFormedB d = true) (eN j : Nat)
    (he1 : 1 ≤ eN) (heL : eN ≤ d.originalLength)
    (hj : j < d.originalIndices.getD eN 0) : charOf d j ≤ eN - 1 := by
  have hmono : ∀ c ∈ List.range d.originalLength,
      (fun c => decide (d.originalIndices.getD (c + 1) 0 ≤ j)) c = true →
      (fun c => decide (c < eN - 1)) c = true := by
    intro c hc hcj
    rw [List.mem_range] at hc
    by_contra hlt
    have hge : eN - 1 ≤ c := by
      rcases Nat.lt_or_ge c (eN - 1) with h | h
      · exact absurd (decide_eq_true h) (by simpa using hlt)
      · exact h
    have : d.originalIndices.getD eN 0 ≤ d.originalIndices.getD (c + 1) 0 :=
      oi_mono d hwf eN (c + 1) (by omega) (by omega)
    have := of_decide_eq_true hcj
    omega
  calc charOf d j = List.countP (fun c => decide (d.originalIndices.getD (c + 1) 0 ≤ j))
        (List.range d.originalLength) := by
        unfold charOf
        rw [List.countP_eq_length_filter]
    _ ≤ List.countP (fun c => decide (c < eN - 1)) (List.range d.originalLength) :=
        List.countP_mono_left hmono
    _ = min d.originalLength (eN - 1) := countP_lt_range _ _
    _ ≤ eN - 1 := Nat.min_le_right _ _

theorem slice_getD (l : List α) (a b m : Nat) (dflt : α) (hm : a + m < b) (hb : b ≤ l.length) :
    ((l.take b).drop a).getD m dflt = l.getD (a + m) dflt := by
  rw [List.getD_eq_getElem?_getD, List.getD_eq_getElem?_getD, List.getElem?_drop,
    List.getElem?_take, if_pos hm]

theorem slice_basic (d : SourceMappingData) (hwf : wellFormedB d = true) (s e : Int)
    (h0 : 0 ≤ s) (hse : s ≤ e) (heL : e ≤ (d.originalLength : Int) - 1) :
    pSlice d s e =
      (d.pinyinString.take (d.originalIndices.getD e.toNat 0)).drop
        (d.originalIndices.getD s.toNat 0) ∧
    bSlice d s e =
      (d.boundary.take (d.originalIndices.getD e.toNat 0 + 1)).drop
        (d.originalIndices.getD s.toNat 0) ∧
    d.originalIndices.getD s.toNat 0 ≤ d.originalIndices.getD e.toNat 0 ∧
    d.originalIndices.getD e.toNat 0 ≤ d.pinyinString.length ∧
    (pSlice d s e).length =
      d.originalIndices.getD e.toNat 0 - d.originalIndices.getD s.toNat 0 ∧
    (bSlice d s e).length = (pSlice d s e).length + 1 := by
  obtain ⟨-, hoiLen, hbLen, -, hoiLast, -, -, -⟩ := wellFormed_facts d hwf
  have hL1 : 1 ≤ d.originalLength := by omega
  have hsN : s.toNat < d.originalIndices.length := by omega
  have heN : e.toNat < d.originalIndices.length := by omega
  have hseN : s.toNat ≤ e.toNat := by omega
  have heLN : e.toNat ≤ d.originalLength := by omega
  have hs_at : jsAt? d.originalIndices s = some (d.originalIndices.getD s.toNat 0) := by
    rw [← Int.toNat_of_nonneg h0]
    exact jsAt?_eq_getD _ 0 _ hsN
  have he_at : jsAt? d.originalIndices e = some (d.originalIndices.getD e.toNat 0) := by
    rw [← Int.toNat_of_nonneg (le_trans h0 hse)]
    exact jsAt?_eq_getD _ 0 _ heN
  have hoo : d.originalIndices.getD s.toNat 0 ≤ d.originalIndices.getD e.toNat 0 :=
    oi_mono d hwf _ _ hseN heLN
  have hoe : d.originalIndices.getD e.toNat 0 ≤ d.pinyinString.length := by
    have := oi_mono d hwf e.toNat d.originalLength heLN (le_refl _)
    omega
  have hp : pSlice d s e =
      (d.pinyinString.take (d.originalIndices.getD e.toNat 0)).drop
        (d.originalIndices.getD s.toNat 0) := by
    unfold pSlice
    rw [hs_at, he_at]
  have hb : bSlice d s e =
      (d.boundary.take (d.originalIndices.getD e.toNat 0 + 1)).drop
        (d.originalIndices.getD s.toNat 0) := by
    unfold bSlice
    rw [hs_at, he_at]
  have hpl : (pSlice d s e).length =
      d.originalIndices.getD e.toNat 0 - d.originalIndices.getD s.toNat 0 := by
    rw [hp, List.length_drop, List.length_take]
    omega
  refine ⟨hp, hb, hoo, hoe, hpl, ?_⟩
  rw [hb, hpl, List.length_drop, List.length_take]
  omega


theorem bslice_getD (d : SourceMappingData) (hwf : wellFormedB d = true) (s e : Int)
    (h0 : 0 ≤ s) (hse : s ≤ e) (heL : e ≤ (d.originalLength : Int) - 1) :
    ∀ m, 1 ≤ m → m ≤ (pSlice d s e).length →
      (bSlice d s e).getD m (0, 0) =
        d.boundary.getD (d.originalIndices.getD s.toNat 0 + m) (0, 0) := by
  obtain ⟨hp, hb, hoo, hoe, hpl, hbl⟩ := slice_basic d hwf s e h0 hse heL
  obtain ⟨-, hoiLen, hbLen, -, hoiLast, -, -, -⟩ := wellFormed_facts d hwf
  intro m h1 h2
  rw [hb]
  exact slice_getD _ _ _ _ _ (by omega) (by omega)

theorem bslice_char (d : SourceMappingData) (hwf : wellFormedB d = true) (s e : Int)
    (h0 : 0 ≤ s) (hse : s ≤ e) (heL : e ≤ (d.originalLength : Int) - 1) :
    ∀ m, 1 ≤ m → m ≤ (pSlice d s e).length →
      ((bSlice d s e).getD m (0, 0)).1 =
        (charOf d (d.originalIndices.getD s.toNat 0 + m - 1) : Int) := by
  obtain ⟨hp, hb, hoo, hoe, hpl, hbl⟩ := slice_basic d hwf s e h0 hse heL
  obtain ⟨-, hoiLen, hbLen, -, hoiLast, -, hchar, -⟩ := wellFormed_facts d hwf
  intro m h1 h2
  rw [bslice_getD d hwf s e h0 hse heL m h1 h2]
  have hlt : d.originalIndices.getD s.toNat 0 + m - 1 < d.pinyinString.length := by omega
  have h3 := hchar (d.originalIndices.getD s.toNat 0 + m - 1) hlt
  rw [show d.originalIndices.getD s.toNat 0 + m - 1 + 1 =
    d.originalIndices.getD s.toNat 0 + m by omega] at h3
  exact h3

theorem ctxOK_of_wf (d : SourceMappingData) (target : List Char) (s e : Int)
    (hwf : wellFormedB d = true) (h0 : 0 ≤ s) (hse : s ≤ e)
    (heL : e ≤ (d.originalLength : Int) - 1)
    (hP : 1 ≤ (pSlice d s e).length) :
    jsAt? (bSlice d s e) 1 = some ((bSlice d s e).getD 1 (0, 0)) ∧
    CtxOK ⟨pSlice d s e, target, bSlice d s e,
      ((bSlice d s e).getD 1 (0, 0)).1, ((bSlice d s e).getD 1 (0, 0)).2⟩
      (pSlice d s e).length (e - 1 - s) := by
  obtain ⟨hp, hb, hoo, hoe, hpl, hbl⟩ := slice_basic d hwf s e h0 hse heL
  obtain ⟨-, hoiLen, hbLen, -, hoiLast, -, hchar, hinj⟩ := wellFormed_facts d hwf
  have hgd := bslice_getD d hwf s e h0 hse heL
  have hcharm := bslice_char d hwf s e h0 hse heL
  have hL1 : 1 ≤ d.originalLength := by omega
  have heN1 : 1 ≤ e.toNat := by
    by_contra hc
    have he0 : e = 0 := by omega
    have hs0 : s = 0 := by omega
    subst he0
    subst hs0
    omega
  have hsImg : (s.toNat : Int) = s := Int.toNat_of_nonneg h0
  have heImg : (e.toNat : Int) = e := Int.toNat_of_nonneg (le_trans h0 hse)
  have hchar_lo : ∀ m, 1 ≤ m → m ≤ (pSlice d s e).length →
      s.toNat ≤ charOf d (d.originalIndices.getD s.toNat 0 + m - 1) := by
    intro m h1 h2
    exact charOf_ge d hwf s.toNat _ (by omega) (by omega)
  have hchar_hi : ∀ m, 1 ≤ m → m ≤ (pSlice d s e).length →
      charOf d (d.originalIndices.getD s.toNat 0 + m - 1) ≤ e.toNat - 1 := by
    intro m h1 h2
    exact charOf_le d hwf e.toNat _ heN1 (by omega) (by omega)
  have hone : jsAt? (bSlice d s e) 1 = some ((bSlice d s e).getD 1 (0, 0)) := by
    have h1 : (1 : Nat) < (bSlice d s e).length := by omega
    have h2 := jsAt?_eq_getD (bSlice d s e) (0, 0) 1 h1
    simpa using h2
  refine ⟨hone, ?_⟩
  refine ⟨rfl, hbl, ?_, ?_, ?_, ?_⟩
  · intro m h1 h2
    show (0 : Int) ≤ ((bSlice d s e).getD m (0, 0)).1 - ((bSlice d s e).getD 1 (0, 0)).1
    rw [hcharm m h1 h2, hcharm 1 (le_refl _) hP]
    have h3 : charOf d (d.originalIndices.getD s.toNat 0 + 1 - 1) ≤
        charOf d (d.originalIndices.getD s.toNat 0 + m - 1) := charOf_mono d _ _ (by omega)
    omega
  · intro m h1 h2
    show ((bSlice d s e).getD m (0, 0)).1 - ((bSlice d s e).getD 1 (0, 0)).1 ≤ e - 1 - s
    rw [hcharm m h1 h2, hcharm 1 (le_refl _) hP]
    have h3 := hchar_hi m h1 h2
    have h4 := hchar_lo 1 (le_refl _) hP
    omega
  · intro m m2 h1 h12 h2
    show ((bSlice d s e).getD m (0, 0)).1 ≤ ((bSlice d s e).getD m2 (0, 0)).1
    rw [hcharm m h1 (by omega), hcharm m2 (by omega) h2]
    have h3 := charOf_mono d (d.originalIndices.getD s.toNat 0 + m - 1)
      (d.originalIndices.getD s.toNat 0 + m2 - 1) (by omega)
    omega
  · intro m m2 h1 h2 h12 h22 heq
    simp only [bmf] at heq
    show ((bSlice d s e).getD m (0, 0)).1 = ((bSlice d s e).getD m2 (0, 0)).1
    rw [hgd m h1 h2] at heq ⊢
    rw [hgd m2 h12 h22] at heq ⊢
    have hm : d.originalIndices.getD s.toNat 0 + m - 1 < d.pinyinString.length := by omega
    have hm2 : d.originalIndices.getD s.toNat 0 + m2 - 1 < d.pinyinString.length := by omega
    have h3 := hinj (d.originalIndices.getD s.toNat 0 + m - 1)
      (d.originalIndices.getD s.toNat 0 + m2 - 1) hm hm2
    rw [show d.originalIndices.getD s.toNat 0 + m - 1 + 1 =
        d.originalIndices.getD s.toNat 0 + m by omega,
      show d.originalIndices.getD s.toNat 0 + m2 - 1 + 1 =
        d.originalIndices.getD s.toNat 0 + m2 by omega] at h3
    exact h3 heq

/-! ## C3: the greedy feasibility pass -/

theorem greedyPos_length_le (p : List Char) : ∀ (t : List Char) (i : Nat),
    (greedyPos p t i).length ≤ t.length := by
  induction p with
  | nil =>
    intro t i
    cases t <;> simp [greedyPos]
  | cons c cs ih =>
    intro t i
    cases t with
    | nil => simp [greedyPos]
    | cons a ts =>
      by_cases h : c = a
      · simp only [greedyPos, if_pos h, List.length_cons]
        exact Nat.succ_le_succ (ih ts (i + 1))
      · simp only [greedyPos, if_neg h]
        exact ih (a :: ts) (i + 1)

theorem greedyPos_complete_iff (p : List Char) : ∀ (t : List Char) (i : Nat),
    ((greedyPos p t i).length = t.length ↔ List.Sublist t p) := by
  induction p with
  | nil =>
    intro t i
    cases t with
    | nil => simp [greedyPos]
    | cons a ts => simp [greedyPos]
  | cons c cs ih =>
    intro t i
    cases t with
    | nil => simp [greedyPos]
    | cons a ts =>
      by_cases h : c = a
      · subst h
        rw [show greedyPos (c :: cs) (c :: ts) i = i :: greedyPos cs ts (i + 1) from by
          simp [greedyPos]]
        simp only [List.length_cons, Nat.add_right_cancel_iff]
        rw [ih ts (i + 1)]
        exact (List.cons_sublist_cons).symm
      · simp only [greedyPos, if_neg h]
        rw [ih (a :: ts) (i + 1)]
        constructor
        · intro h2
          exact h2.cons c
        · intro h2
          cases h2 with
          | cons _ h3 => exact h3
          | cons₂ _ h3 => exact absurd rfl h

/-- C3: for well-formed data, a valid sub-range, and a non-empty
whitespace-free query that is not a subsequence of the transliteration
slice (equivalently, whose greedy left-to-right scan cannot place every
letter), `searchByBoundaryMapping` returns no-match; by definition it
does so at the feasibility check, before the scoring DP runs. -/
theorem claim3_subsequence_prune (d : SourceMappingData) (target : List Char) (s e : Int)
    (hwf : wellFormedB d = true) (h0 : 0 ≤ s) (hse : s ≤ e)
    (heL : e ≤ (d.originalLength : Int) - 1)
    (hne : target ≠ []) (hnosp : ∀ c ∈ target, jsIsSpace c = false)
    (hnsub : ¬ List.Sublist target (pSlice d s e)) :
    searchByBoundaryMapping d target s e = JsVal.noMatch := by
  unfold searchByBoundaryMapping
  by_cases hguard : target = [] ∨ (pSlice d s e).length < target.length ∨
      d.originalLength = 0
  · rw [if_pos hguard]
  · rw [if_neg hguard]
    push_neg at hguard
    obtain ⟨-, hPT, -⟩ := hguard
    have hP : 1 ≤ (pSlice d s e).length := by
      have : target.length ≠ 0 := fun hc => hne (List.length_eq_zero.mp hc)
      omega
    obtain ⟨hone, -⟩ := ctxOK_of_wf d target s e hwf h0 hse heL hP
    have hlen : (greedyPos (pSlice d s e) target 0).length < target.length := by
      rcases Nat.lt_or_ge (greedyPos (pSlice d s e) target 0).length target.length with h | h
      · exact h
      · have heq : (greedyPos (pSlice d s e) target 0).length = target.length :=
          le_antisymm (greedyPos_length_le _ _ _) h
        exact absurd ((greedyPos_complete_iff _ _ _).mp heq) hnsub
    rw [hone]
    simp [hlen]

/-- Witness for C3: `"q"` is not a subsequence of `"ab"`. -/
theorem claim3_witness :
    wellFormedB (identityData ("ab".toList)) = true ∧
    searchByBoundaryMapping (identityData ("ab".toList)) ("q".toList) 0 1 = JsVal.noMatch :=
  ⟨by decide, claim3_subsequence_prune (identityData ("ab".toList)) ("q".toList) 0 1
    (by decide) (by decide) (by decide) (by decide) (by decide) (by decide) (by decide)⟩

/-! ## The DP fold invariant -/

theorem cellOK_transfer (p1 p2 : Nat → Option (Int × Int × Nat)) (relMax : Int) (j : Nat)
    (c : Int × Int × Nat) (hc : cellOK p1 relMax j c)
    (h : ∀ j3, j3 < j → p1 j3 = p2 j3) : cellOK p2 relMax j c := by
  obtain ⟨h1, h2, h3, h4, h5, h6⟩ := hc
  refine ⟨h1, h2, h3, h4, h5, ?_⟩
  rcases h6 with h6 | h6
  · exact Or.inl h6
  · by_cases hl : c.2.2 = j + 1
    · exact Or.inl hl
    · right
      rw [← h (j - c.2.2) (by omega)]
      exact h6

theorem tabOK_transfer (ctx : DpCtx) (P : Nat) (relMax : Int)
    (p1 p2 : Nat → Option (Int × Int × Nat)) (k p : Nat) (tv : DpTab)
    (ht : tabOK ctx P relMax p1 k p tv)
    (h : ∀ j3, j3 + 1 < k → p1 j3 = p2 j3) : tabOK ctx P relMax p2 k p tv := by
  rcases ht with ht | ⟨h1, h2, h3, h4, h5, h6⟩
  · exact Or.inl ht
  · refine Or.inr ⟨h1, h2, h3, h4, h5, ?_⟩
    rcases h6 with h6 | h6
    · exact Or.inl h6
    · by_cases hl : tv.2.1 = k
      · exact Or.inl hl
      · right
        rw [← h (k - 1 - tv.2.1) (by omega)]
        exact h6

theorem tabOK_mono_p (ctx : DpCtx) (P : Nat) (relMax : Int)
    (p1 : Nat → Option (Int × Int × Nat)) (k p p2 : Nat) (tv : DpTab)
    (ht : tabOK ctx P relMax p1 k p tv) (hp : p ≤ p2) : tabOK ctx P relMax p1 k p2 tv := by
  rcases ht with ht | ⟨h1, h2, h3, h4, ⟨m, hm1, hm2, hm3, hm4, hm5⟩, h6⟩
  · exact Or.inl ht
  · exact Or.inr ⟨h1, h2, h3, h4, ⟨m, hm1, le_trans hm2 hp, hm3, hm4, hm5⟩, h6⟩

theorem dpStep_ok (ctx : DpCtx) (P j : Nat) (hlen : ctx.bnd.length = P + 1)
    (mpi : Nat) (h2 : mpi ≤ P) (acc : DpState × DpTab × Nat) :
    ∃ out, dpStep ctx P j acc mpi = Except.ok out := by
  have hbm : jsAt? ctx.bnd (mpi : Int) = some (ctx.bnd.getD mpi (0, 0)) :=
    jsAt?_eq_getD ctx.bnd (0, 0) mpi (by omega)
  by_cases hacc : (jsAcceptB ctx j mpi acc.2.1.1 acc.2.1.2.2.1 acc.2.1.2.2.2 acc.2.2
      (ctx.bnd.getD mpi (0, 0)) &&
      decide (acc.1.scores (mpi - 1) ≤ acc.2.2 + acc.2.1.2.1 * 2 + 1)) = true
  · exact ⟨_, dpStep_accept_eq ctx P j mpi acc.1 acc.2.1 acc.2.2 _ hbm hacc⟩
  · simp only [dpStep, hbm]
    rw [if_neg (by simpa using hacc)]
    by_cases hg : (ctx.bnd.getD mpi (0, 0)).1 - ctx.sB - (acc.1.table (mpi - 1)).2.2.1 = 0
    · rw [if_pos hg]
      exact ⟨_, rfl⟩
    · rw [if_neg hg]
      by_cases hw : (decide (mpi < P - 1) &&
          decide ((ctx.bnd.getD mpi (0, 0)).1 - ctx.sB - (acc.1.table (mpi - 1)).2.2.1 = 1)) =
          true
      · rw [if_pos hw]
        have hlt : mpi < P - 1 := by
          rw [Bool.and_eq_true] at hw
          exact of_decide_eq_true hw.1
        have hbm1 : jsAt? ctx.bnd ((mpi : Int) + 1) = some (ctx.bnd.getD (mpi + 1) (0, 0)) := by
          have h3 := jsAt?_eq_getD ctx.bnd (0, 0) (mpi + 1) (by omega)
          simpa using h3
        rw [hbm1]
        exact ⟨_, rfl⟩
      · rw [if_neg hw]
        exact ⟨_, rfl⟩

theorem dpStep_inv (ctx : DpCtx) (P : Nat) (relMax : Int) (hctx : CtxOK ctx P relMax)
    (n a lo : Nat) (pre : DpState) (hpre : StOK ctx P relMax n lo pre)
    (hlo : lo ≤ a) (q : Nat) (hq1 : a + 1 ≤ q) (hqP : q ≤ P)
    (acc : DpState × DpTab × Nat) (hinv : SweepInv ctx P relMax n a pre q acc) :
    ∃ acc2, dpStep ctx P n acc q = Except.ok acc2 ∧
      SweepInv ctx P relMax n a pre (q + 1) acc2 := by
  obtain ⟨hc1, hc2, hfro, hcol, hta, hsa, houtn, hcell, htab, hsc, hmono⟩ := hinv
  obtain ⟨hpcell, hvirg, hptab, hpsc⟩ := hpre
  have hbm : jsAt? ctx.bnd (q : Int) = some (bmf ctx q) :=
    jsAt?_eq_getD ctx.bnd (0, 0) q (by rw [hctx.bndLen]; omega)
  have hlo_q : 0 ≤ (bmf ctx q).1 - ctx.sB := hctx.lo q (by omega) hqP
  have hhi_q : (bmf ctx q).1 - ctx.sB ≤ relMax := hctx.hi q (by omega) hqP
  have htabc : tabOK ctx P relMax (fun j3 => pre.path P j3) n (q - 1) acc.2.1 := by
    rw [hc1]
    exact hptab (q - 1) (by omega) (by omega)
  by_cases haccb : (jsAcceptB ctx n q acc.2.1.1 acc.2.1.2.2.1 acc.2.1.2.2.2 acc.2.2
      (bmf ctx q) && decide (acc.1.scores (q - 1) ≤ acc.2.2 + acc.2.1.2.1 * 2 + 1)) = true
  · -- accepted and recorded
    have heq := dpStep_accept_eq ctx P n q acc.1 acc.2.1 acc.2.2 (bmf ctx q) hbm haccb
    rw [Bool.and_eq_true] at haccb
    obtain ⟨haccg, hgeb⟩ := haccb
    have hge : acc.1.scores (q - 1) ≤ acc.2.2 + acc.2.1.2.1 * 2 + 1 :=
      of_decide_eq_true hgeb
    have haccg2 := haccg
    simp only [jsAcceptB, Bool.and_eq_true] at haccg2
    obtain ⟨⟨-, hg2⟩, hg3⟩ := haccg2
    -- the shape facts for the recorded boundary offsets
    have hshape : (acc.2.1.1 : Int) ≤ acc.2.1.2.2.1 + 1 ∧
        (if jsIsNewWordB ctx q acc.2.1.2.2.1 (bmf ctx q) then
          acc.2.1.2.2.1 < (bmf ctx q).1 - ctx.sB
         else acc.2.1.2.2.1 = (bmf ctx q).1 - ctx.sB ∧ 1 ≤ acc.2.1.1) := by
      by_cases hnw : jsIsNewWordB ctx q acc.2.1.2.2.1 (bmf ctx q) = true
      · rw [if_pos hnw]
        have hne : acc.2.1.2.2.1 ≠ (bmf ctx q).1 - ctx.sB := by
          simp only [jsIsNewWordB, Bool.and_eq_true, Bool.not_eq_true',
            decide_eq_false_iff_not] at hnw
          exact hnw.2
        rcases htabc with hd | ⟨-, -, -, h4, ⟨m, hm1, hm2, hm3, hm4, -⟩, -⟩
        · have h1 : acc.2.1.1 = 0 := by simp [hd, dTabDefault]
          have h5 : acc.2.1.2.2.1 = (-1 : Int) := by simp [hd, dTabDefault]
          constructor
          · rw [h1, h5]
            norm_num
          · rw [h5]
            omega
        · refine ⟨h4, ?_⟩
          have hmono2 := hctx.mono m q hm1 (by omega) hqP
          rw [hm4] at hne ⊢
          omega
      · rw [if_neg hnw]
        have hcont : jsIsContB ctx n q acc.2.1.1 acc.2.1.2.2.2 (bmf ctx q) = true := by
          rw [Bool.or_eq_true] at hg2
          rcases hg2 with h | h
          · exact absurd h hnw
          · exact h
        simp only [jsIsContB, Bool.and_eq_true, decide_eq_true_eq] at hcont
        obtain ⟨⟨hps, hpe⟩, -⟩ := hcont
        rcases htabc with hd | ⟨h1, -, -, h4, ⟨m, hm1, hm2, hm3, hm4, hm5⟩, -⟩
        · exfalso
          have h0 : acc.2.1.1 = 0 := by simp [hd, dTabDefault]
          omega
        · have hinj2 : (bmf ctx m).1 = (bmf ctx q).1 := by
            apply hctx.inj m q hm1 hm3 (by omega) hqP
            have : acc.2.1.2.2.2 = (bmf ctx m).2 - ctx.eB := hm5
            rw [this] at hpe
            omega
          refine ⟨h4, ⟨?_, h1⟩⟩
          rw [hm4, hinj2]
    -- the letter-count facts
    have hlet : acc.2.1.2.1 ≤ n ∧
        (acc.2.1.2.1 + 1 = n + 1 ∨
          (pre.path P (n - (acc.2.1.2.1 + 1))).isSome = true) := by
      rcases htabc with hd | ⟨-, hl1, hl2, -, -, hl5⟩
      · have h0 : acc.2.1.2.1 = 0 := by simp [hd, dTabDefault]
        rw [h0]
        by_cases hn0 : n = 0
        · exact ⟨by omega, Or.inl (by omega)⟩
        · refine ⟨by omega, Or.inr ?_⟩
          have hps : 0 < acc.2.2 := by
            rw [Bool.or_eq_true] at hg3
            rcases hg3 with h | h
            · exact absurd (of_decide_eq_true h) hn0
            · exact of_decide_eq_true h
          rw [hc2] at hps
          have := (hpsc (q - 1) (by omega) (by omega) hps).2
          rw [show n - (0 + 1) = n - 1 by omega]
          exact this
      · refine ⟨hl2, ?_⟩
        rcases hl5 with h | h
        · exact Or.inl (by omega)
        · refine Or.inr ?_
          rw [show n - (acc.2.1.2.1 + 1) = n - 1 - acc.2.1.2.1 by omega]
          exact h
    refine ⟨_, heq, ?_⟩
    refine ⟨?_, ?_, ?_, ?_, ?_, ?_, ?_, ?_, ?_, ?_, ?_⟩
    · show acc.1.table q = pre.table (q + 1 - 1)
      rw [show q + 1 - 1 = q by omega]
      exact (hfro q (le_refl q)).1
    · show acc.1.scores q = pre.scores (q + 1 - 1)
      rw [show q + 1 - 1 = q by omega]
      exact (hfro q (le_refl q)).2
    · intro p hp
      constructor
      · show updF acc.1.table q _ p = pre.table p
        rw [updF_other _ _ _ _ (by omega)]
        exact (hfro p (by omega)).1
      · show updF acc.1.scores q _ p = pre.scores p
        rw [updF_other _ _ _ _ (by omega)]
        exact (hfro p (by omega)).2
    · intro p j2 hj2
      show updF2 acc.1.path q n _ p j2 = pre.path p j2
      rw [updF2_other _ _ _ _ _ _ (fun hcon => hj2 hcon.2)]
      exact hcol p j2 hj2
    · show updF acc.1.table q _ a = dTabDefault
      rw [updF_other _ _ _ _ (by omega)]
      exact hta
    · show updF acc.1.scores q _ a = 0
      rw [updF_other _ _ _ _ (by omega)]
      exact hsa
    · intro p hp
      show updF2 acc.1.path q n _ p n = pre.path p n
      rw [updF2_other _ _ _ _ _ _ (fun hcon => by omega)]
      exact houtn p hp
    · intro p c hap hpq hc
      dsimp only at hc
      by_cases hpq2 : p = q
      · subst hpq2
        rw [show ∀ v : Option (Int × Int × Nat), updF2 acc.1.path p n v p n = v from
          fun v => updF2_same _ _ _ _] at hc
        by_cases hnm : decide (acc.1.scores (p - 1) < acc.2.2 + acc.2.1.2.1 * 2 + 1) = true
        · rw [if_pos hnm] at hc
          injection hc with hc
          subst hc
          refine ⟨?_, ?_, ?_, ?_, ?_, ?_⟩
          · show 1 ≤ acc.2.1.2.1 + 1
            omega
          · show acc.2.1.2.1 + 1 ≤ n + 1
            obtain ⟨hl1, -⟩ := hlet
            omega
          · show (0 : Int) ≤ (bmf ctx p).1 - ctx.sB - (acc.2.1.1 : Int) +
              (if jsIsNewWordB ctx p acc.2.1.2.2.1 (bmf ctx p) then 0 else 1)
            obtain ⟨hs1, hs2⟩ := hshape
            by_cases hnw : jsIsNewWordB ctx p acc.2.1.2.2.1 (bmf ctx p) = true
            · rw [if_pos hnw]
              rw [if_pos hnw] at hs2
              omega
            · rw [if_neg hnw]
              rw [if_neg hnw] at hs2
              omega
          · show (bmf ctx p).1 - ctx.sB - (acc.2.1.1 : Int) +
              (if jsIsNewWordB ctx p acc.2.1.2.2.1 (bmf ctx p) then 0 else 1) ≤
              (bmf ctx p).1 - ctx.sB
            obtain ⟨hs1, hs2⟩ := hshape
            by_cases hnw : jsIsNewWordB ctx p acc.2.1.2.2.1 (bmf ctx p) = true
            · rw [if_pos hnw]
              omega
            · rw [if_neg hnw]
              rw [if_neg hnw] at hs2
              omega
          · show (bmf ctx p).1 - ctx.sB ≤ relMax
            exact hhi_q
          · obtain ⟨hl1, hl2⟩ := hlet
            rcases hl2 with h | h
            · exact Or.inl h
            · by_cases hn0 : n = 0
              · exfalso
                rw [show n - (acc.2.1.2.1 + 1) = 0 by omega] at h
                rw [hvirg P 0 (by omega)] at h
                simp at h
              · right
                show (updF2 acc.1.path p n _ P (n - (acc.2.1.2.1 + 1))).isSome = true
                rw [updF2_other _ _ _ _ _ _ (fun hcon => by omega)]
                rw [hcol P _ (by omega)]
                exact h
        · rw [if_neg hnm] at hc
          by_cases hqa : p - 1 = a
          · exfalso
            rw [hqa] at hc
            rw [houtn a (Or.inl (le_refl a))] at hc
            rw [hvirg a n (le_refl n)] at hc
            cases hc
          · have hcOK := hcell (p - 1) c (by omega) (by omega) hc
            refine cellOK_transfer _ _ _ _ _ hcOK ?_
            intro j3 hj3
            show acc.1.path P j3 = updF2 acc.1.path p n _ P j3
            rw [updF2_other _ _ _ _ _ _ (fun hcon => by omega)]
      · rw [show ∀ v : Option (Int × Int × Nat), updF2 acc.1.path q n v p n = acc.1.path p n
          from fun v => updF2_other _ _ _ _ _ _ (fun hcon => hpq2 hcon.1)] at hc
        have hcOK := hcell p c hap (by omega) hc
        refine cellOK_transfer _ _ _ _ _ hcOK ?_
        intro j3 hj3
        show acc.1.path P j3 = updF2 acc.1.path q n _ P j3
        rw [updF2_other _ _ _ _ _ _ (fun hcon => by omega)]
    · intro p hap hpq
      by_cases hpq2 : p = q
      · subst hpq2
        show tabOK ctx P relMax _ (n + 1) p (updF acc.1.table p _ p)
        rw [updF_same]
        refine Or.inr ⟨?_, ?_, ?_, ?_, ⟨p, by omega, le_refl p, hqP, rfl, rfl⟩, ?_⟩
        · show 1 ≤ acc.2.1.1 + (if jsIsNewWordB ctx p acc.2.1.2.2.1 (bmf ctx p) then 1 else 0)
          by_cases hnw : jsIsNewWordB ctx p acc.2.1.2.2.1 (bmf ctx p) = true
          · rw [if_pos hnw]
            omega
          · rw [if_neg hnw]
            obtain ⟨-, hs2⟩ := hshape
            rw [if_neg hnw] at hs2
            omega
        · show 1 ≤ acc.2.1.2.1 + 1
          omega
        · show acc.2.1.2.1 + 1 ≤ n + 1
          obtain ⟨hl1, -⟩ := hlet
          omega
        · show ((acc.2.1.1 + (if jsIsNewWordB ctx p acc.2.1.2.2.1 (bmf ctx p) then 1 else 0)
            : Nat) : Int) ≤ (bmf ctx p).1 - ctx.sB + 1
          obtain ⟨hs1, hs2⟩ := hshape
          by_cases hnw : jsIsNewWordB ctx p acc.2.1.2.2.1 (bmf ctx p) = true
          · rw [if_pos hnw]
            rw [if_pos hnw] at hs2
            push_cast
            omega
          · rw [if_neg hnw]
            rw [if_neg hnw] at hs2
            push_cast
            omega
        · obtain ⟨-, hl2⟩ := hlet
          rcases hl2 with h | h
          · left
            show acc.2.1.2.1 + 1 = n + 1
            omega
          · by_cases hn0 : n = 0
            · exfalso
              rw [show n - (acc.2.1.2.1 + 1) = 0 by omega] at h
              rw [hvirg P 0 (by omega)] at h
              simp at h
            · right
              show (updF2 acc.1.path p n _ P (n + 1 - 1 - (acc.2.1.2.1 + 1))).isSome = true
              rw [updF2_other _ _ _ _ _ _ (fun hcon => by omega)]
              rw [show n + 1 - 1 - (acc.2.1.2.1 + 1) = n - (acc.2.1.2.1 + 1) by omega]
              rw [hcol P _ (by omega)]
              exact h
      · show tabOK ctx P relMax _ (n + 1) p (updF acc.1.table q _ p)
        rw [updF_other _ _ _ _ (by omega)]
        refine tabOK_transfer ctx P relMax (fun j3 => acc.1.path P j3) _ (n + 1) p _
          (htab p hap (by omega)) ?_
        intro j3 hj3
        show acc.1.path P j3 = updF2 acc.1.path q n _ P j3
        rw [updF2_other _ _ _ _ _ _ (fun hcon => by omega)]
    · intro p hap hpq hpos
      dsimp only at hpos
      by_cases hpq2 : p = q
      · subst hpq2
        show (updF2 acc.1.path p n _ p n).isSome = true
        rw [updF2_same]
        by_cases hnm : decide (acc.1.scores (p - 1) < acc.2.2 + acc.2.1.2.1 * 2 + 1) = true
        · rw [if_pos hnm]
          rfl
        · rw [if_neg hnm]
          have hnm2 : ¬ acc.1.scores (p - 1) < acc.2.2 + acc.2.1.2.1 * 2 + 1 := by
            intro hcon
            exact absurd (decide_eq_true hcon) (by simpa using hnm)
          have hppos : 0 < acc.1.scores (p - 1) := by omega
          by_cases hqa : p - 1 = a
          · rw [hqa, hsa] at hppos
            exact absurd hppos (lt_irrefl 0)
          · exact hsc (p - 1) (by omega) (by omega) hppos
      · show (updF2 acc.1.path q n _ p n).isSome = true
        rw [updF2_other _ _ _ _ _ _ (fun hcon => hpq2 hcon.1)]
        rw [show ∀ v : Nat, updF acc.1.scores q v p = acc.1.scores p from fun v =>
          updF_other _ _ _ _ (by omega)] at hpos
        exact hsc p hap (by omega) hpos
    · intro p hap hpq hsome
      dsimp only at hsome
      by_cases hpq2 : p + 1 = q
      · show (updF2 acc.1.path q n _ (p + 1) n).isSome = true
        rw [hpq2, updF2_same]
        by_cases hnm : decide (acc.1.scores (q - 1) < acc.2.2 + acc.2.1.2.1 * 2 + 1) = true
        · rw [if_pos hnm]
          rfl
        · rw [if_neg hnm]
          rw [show q - 1 = p by omega]
          rw [show ∀ v : Option (Int × Int × Nat), updF2 acc.1.path q n v p n =
            acc.1.path p n from fun v =>
            updF2_other _ _ _ _ _ _ (fun hcon => by omega)] at hsome
          exact hsome
      · show (updF2 acc.1.path q n _ (p + 1) n).isSome = true
        rw [updF2_other _ _ _ _ _ _ (fun hcon => hpq2 hcon.1)]
        rw [show ∀ v : Option (Int × Int × Nat), updF2 acc.1.path q n v p n =
          acc.1.path p n from fun v =>
          updF2_other _ _ _ _ _ _ (fun hcon => by omega)] at hsome
        exact hmono p hap (by omega) hsome
  · -- rejected or not recorded: carry forward
    obtain ⟨out, hout⟩ := dpStep_ok ctx P n hctx.bndLen q hqP acc
    have hand : (jsAcceptB ctx n q acc.2.1.1 acc.2.1.2.2.1 acc.2.1.2.2.2 acc.2.2
        (bmf ctx q) && decide (acc.1.scores (q - 1) ≤ acc.2.2 + acc.2.1.2.1 * 2 + 1)) =
        false := Bool.eq_false_iff.mpr haccb
    obtain ⟨hs, hp, htabd, hcache⟩ :=
      dpStep_reject_parts ctx P n q acc.1 acc.2.1 acc.2.2 (bmf ctx q) hbm hand out hout
    refine ⟨out, hout, ?_, ?_, ?_, ?_, ?_, ?_, ?_, ?_, ?_, ?_, ?_⟩
    · rw [show out.2.1 = (acc.1.table q, acc.1.scores q).1 from by rw [hcache]]
      show acc.1.table q = pre.table (q + 1 - 1)
      rw [show q + 1 - 1 = q by omega]
      exact (hfro q (le_refl q)).1
    · rw [show out.2.2 = (acc.1.table q, acc.1.scores q).2 from by rw [hcache]]
      show acc.1.scores q = pre.scores (q + 1 - 1)
      rw [show q + 1 - 1 = q by omega]
      exact (hfro q (le_refl q)).2
    · intro p hp2
      constructor
      · rcases htabd with h | h
        · rw [h, updF_other _ _ _ _ (by omega)]
          exact (hfro p (by omega)).1
        · rw [h, updF_other _ _ _ _ (by omega)]
          exact (hfro p (by omega)).1
      · rw [hs, updF_other _ _ _ _ (by omega)]
        exact (hfro p (by omega)).2
    · intro p j2 hj2
      rw [hp, updF2_other _ _ _ _ _ _ (fun hcon => hj2 hcon.2)]
      exact hcol p j2 hj2
    · rcases htabd with h | h
      · rw [h, updF_other _ _ _ _ (by omega)]
        exact hta
      · rw [h, updF_other _ _ _ _ (by omega)]
        exact hta
    · rw [hs, updF_other _ _ _ _ (by omega)]
      exact hsa
    · intro p hp2
      rw [hp, updF2_other _ _ _ _ _ _ (fun hcon => by omega)]
      exact houtn p hp2
    · intro p c hap hpq hc
      have hPn : ∀ j3, j3 < n →
          (fun j3 => acc.1.path P j3) j3 = (fun j3 => out.1.path P j3) j3 := by
        intro j3 hj3
        show acc.1.path P j3 = out.1.path P j3
        rw [hp, updF2_other _ _ _ _ _ _ (fun hcon => by omega)]
      by_cases hpq2 : p = q
      · subst hpq2
        rw [hp, updF2_same] at hc
        by_cases hqa : p - 1 = a
        · exfalso
          rw [hqa] at hc
          rw [houtn a (Or.inl (le_refl a))] at hc
          rw [hvirg a n (le_refl n)] at hc
          cases hc
        · exact cellOK_transfer _ _ _ _ _ (hcell (p - 1) c (by omega) (by omega) hc) hPn
      · rw [hp, updF2_other _ _ _ _ _ _ (fun hcon => hpq2 hcon.1)] at hc
        exact cellOK_transfer _ _ _ _ _ (hcell p c hap (by omega) hc) hPn
    · intro p hap hpq
      have hPn : ∀ j3, j3 + 1 < n + 1 →
          (fun j3 => acc.1.path P j3) j3 = (fun j3 => out.1.path P j3) j3 := by
        intro j3 hj3
        show acc.1.path P j3 = out.1.path P j3
        rw [hp, updF2_other _ _ _ _ _ _ (fun hcon => by omega)]
      by_cases hpq2 : p = q
      · subst hpq2
        rcases htabd with h | h
        · rw [h, updF_same]
          by_cases hqa : p - 1 = a
          · rw [hqa, hta]
            exact Or.inl rfl
          · exact tabOK_transfer ctx P relMax _ _ (n + 1) p _
              (tabOK_mono_p ctx P relMax _ (n + 1) (p - 1) p _
                (htab (p - 1) (by omega) (by omega)) (by omega)) hPn
        · rw [h, updF_same]
          exact Or.inl rfl
      · rcases htabd with h | h
        · rw [h, updF_other _ _ _ _ (by omega)]
          exact tabOK_transfer ctx P relMax _ _ (n + 1) p _ (htab p hap (by omega)) hPn
        · rw [h, updF_other _ _ _ _ (by omega)]
          exact tabOK_transfer ctx P relMax _ _ (n + 1) p _ (htab p hap (by omega)) hPn
    · intro p hap hpq hpos
      by_cases hpq2 : p = q
      · subst hpq2
        rw [hs, updF_same] at hpos
        rw [hp, updF2_same]
        by_cases hqa : p - 1 = a
        · rw [hqa, hsa] at hpos
          exact absurd hpos (lt_irrefl 0)
        · exact hsc (p - 1) (by omega) (by omega) hpos
      · rw [hs, updF_other _ _ _ _ (by omega)] at hpos
        rw [hp, updF2_other _ _ _ _ _ _ (fun hcon => hpq2 hcon.1)]
        exact hsc p hap (by omega) hpos
    · intro p hap hpq hsome
      by_cases hpq2 : p + 1 = q
      · rw [hp, hpq2, updF2_same]
        rw [show q - 1 = p by omega]
        rw [hp, updF2_other _ _ _ _ _ _ (fun hcon => by omega)] at hsome
        exact hsome
      · rw [hp, updF2_other _ _ _ _ _ _ (fun hcon => hpq2 hcon.1)]
        rw [hp, updF2_other _ _ _ _ _ _ (fun hcon => by omega)] at hsome
        exact hmono p hap (by omega) hsome

theorem dpFold_inv (ctx : DpCtx) (P : Nat) (relMax : Int) (hctx : CtxOK ctx P relMax)
    (n a lo : Nat) (pre : DpState) (hpre : StOK ctx P relMax n lo pre) (hlo : lo ≤ a) :
    ∀ (k q : Nat) (acc : DpState × DpTab × Nat), a + 1 ≤ q → q + k = P + 1 →
      SweepInv ctx P relMax n a pre q acc →
      ∃ acc2, dpFold ctx P n (List.range' q k) acc = Except.ok acc2 ∧
        SweepInv ctx P relMax n a pre (P + 1) acc2 := by
  intro k
  induction k with
  | zero =>
    intro q acc hq1 hqk hinv
    refine ⟨acc, rfl, ?_⟩
    rw [show P + 1 = q by omega]
    exact hinv
  | succ k2 ih =>
    intro q acc hq1 hqk hinv
    obtain ⟨acc2, hstep, hinv2⟩ := dpStep_inv ctx P relMax hctx n a lo pre hpre hlo q hq1
      (by omega) acc hinv
    have hred : dpFold ctx P n (q :: List.range' (q + 1) k2) acc =
        dpFold ctx P n (List.range' (q + 1) k2) acc2 := by
      show (match dpStep ctx P n acc q with
        | Except.error e => Except.error e
        | Except.ok acc3 => dpFold ctx P n (List.range' (q + 1) k2) acc3) = _
      rw [hstep]
    rw [List.range'_succ, hred]
    exact ih (q + 1) acc2 (by omega) (by omega) hinv2

theorem some_chain (g : Nat → Bool) (a : Nat) :
    ∀ (k p : Nat), a ≤ p →
      (∀ p2, a ≤ p2 → p2 + 1 ≤ p + k → g p2 = true → g (p2 + 1) = true) →
      g p = true → g (p + k) = true := by
  intro k
  induction k with
  | zero =>
    intro p hap hstep hg
    exact hg
  | succ k2 ih =>
    intro p hap hstep hg
    have h2 := ih p hap (fun p2 h1 h2 h3 => hstep p2 h1 (by omega) h3) hg
    have h3 := hstep (p + k2) (by omega) (by omega) h2
    rw [show p + (k2 + 1) = p + k2 + 1 by omega]
    exact h3

theorem stOK_init (ctx : DpCtx) (P : Nat) (relMax : Int) :
    StOK ctx P relMax 0 0 dpInit := by
  refine ⟨?_, ?_, ?_, ?_⟩
  · intro p j2 c hj2 hc
    exact absurd hj2 (Nat.not_lt_zero j2)
  · intro p j2 _
    rfl
  · intro p _ _
    exact Or.inl rfl
  · intro p _ _ hpos
    exact absurd hpos (lt_irrefl 0)

theorem dpSweep_inv (ctx : DpCtx) (P : Nat) (relMax : Int) (hctx : CtxOK ctx P relMax)
    (n a lo : Nat) (pre : DpState) (hpre : StOK ctx P relMax n lo pre)
    (hlo : lo ≤ a) (haP : a ≤ P) :
    ∃ st2, dpSweep ctx P n a pre = Except.ok st2 ∧ StOK ctx P relMax (n + 1) a st2 := by
  obtain ⟨hpcell, hvirg, hptab, hpsc⟩ := hpre
  have hinv0 : SweepInv ctx P relMax n a pre (a + 1)
      (⟨updF pre.table a dTabDefault, updF pre.scores a 0, pre.path⟩,
        pre.table a, pre.scores a) := by
    refine ⟨?_, ?_, ?_, ?_, ?_, ?_, ?_, ?_, ?_, ?_, ?_⟩
    · show pre.table a = pre.table (a + 1 - 1)
      rw [show a + 1 - 1 = a by omega]
    · show pre.scores a = pre.scores (a + 1 - 1)
      rw [show a + 1 - 1 = a by omega]
    · intro p hp
      exact ⟨updF_other _ _ _ _ (by omega), updF_other _ _ _ _ (by omega)⟩
    · intro p j2 hj2
      rfl
    · exact updF_same _ _ _
    · exact updF_same _ _ _
    · intro p hp
      rfl
    · intro p c hap hpq hc
      exfalso
      dsimp only at hc
      rw [hvirg p n (le_refl n)] at hc
      cases hc
    · intro p hap hpq
      have hpa : p = a := by omega
      subst hpa
      show tabOK ctx P relMax _ (n + 1) p (updF pre.table p dTabDefault p)
      rw [updF_same]
      exact Or.inl rfl
    · intro p hap hpq hpos
      have hpa : p = a := by omega
      subst hpa
      dsimp only at hpos
      rw [updF_same] at hpos
      exact absurd hpos (lt_irrefl 0)
    · intro p hap hpq _
      exfalso
      omega
  obtain ⟨acc2, hfold, hinv2⟩ := dpFold_inv ctx P relMax hctx n a lo pre
    ⟨hpcell, hvirg, hptab, hpsc⟩ hlo (P - a) (a + 1)
    (⟨updF pre.table a dTabDefault, updF pre.scores a 0, pre.path⟩,
      pre.table a, pre.scores a) (le_refl _) (by omega) hinv0
  refine ⟨acc2.1, ?_, ?_⟩
  · show (match dpFold ctx P n (List.range' (a + 1) (P - a))
        (⟨updF pre.table a dTabDefault, updF pre.scores a 0, pre.path⟩,
          pre.table a, pre.scores a) with
      | Except.error e => Except.error e
      | Except.ok acc => Except.ok acc.1) = Except.ok acc2.1
    rw [hfold]
  · obtain ⟨hc1, hc2, hfro, hcol, hta, hsa, houtn, hcell, htab, hsc, hmono⟩ := hinv2
    refine ⟨?_, ?_, ?_, ?_⟩
    · intro p j2 c hj2 hc
      by_cases hj2n : j2 = n
      · subst hj2n
        by_cases hpin : a ≤ p ∧ p ≤ P
        · exact hcell p c hpin.1 (by omega) hc
        · exfalso
          rw [houtn p (by omega)] at hc
          rw [hvirg p j2 (le_refl _)] at hc
          cases hc
      · have hc2' : pre.path p j2 = some c := by
          rw [← hcol p j2 hj2n]
          exact hc
        refine cellOK_transfer (fun j3 => pre.path P j3) _ relMax j2 c
          (hpcell p j2 c (by omega) hc2') ?_
        intro j3 hj3
        show pre.path P j3 = acc2.1.path P j3
        exact (hcol P j3 (by omega)).symm
    · intro p j2 hj2
      rw [hcol p j2 (by omega)]
      exact hvirg p j2 (by omega)
    · intro p hap hpP
      exact htab p hap (by omega)
    · intro p hap hpP hpos
      have h1 := hsc p hap (by omega) hpos
      refine ⟨by omega, ?_⟩
      show (acc2.1.path P (n + 1 - 1)).isSome = true
      rw [show n + 1 - 1 = n by omega]
      have h2 := some_chain (fun p2 => (acc2.1.path p2 n).isSome) a (P - p) p hap
        (fun p2 hp1 hp2 hp3 => hmono p2 hp1 (by omega) hp3) h1
      rw [show p + (P - p) = P by omega] at h2
      exact h2

theorem dpRun_inv (ctx : DpCtx) (P : Nat) (relMax : Int) (hctx : CtxOK ctx P relMax) :
    ∀ (l : List (Nat × Nat)) (n lo : Nat) (st : DpState),
      AnchorsOK P n lo l → StOK ctx P relMax n lo st →
      ∃ st2 lo2, dpRun ctx P l st = Except.ok st2 ∧
        StOK ctx P relMax (n + l.length) lo2 st2 := by
  intro l
  induction l with
  | nil =>
    intro n lo st hA hS
    exact ⟨st, lo, rfl, by simpa using hS⟩
  | cons ja rest ih =>
    intro n lo st hA hS
    obtain ⟨hj, hloa, hjP, hrest⟩ := hA
    obtain ⟨st2, hsw, hS2⟩ := dpSweep_inv ctx P relMax hctx n ja.2 lo st hS hloa (by omega)
    obtain ⟨st3, lo3, hrun, hS3⟩ := ih (n + 1) ja.2 st2 hrest hS2
    refine ⟨st3, lo3, ?_, ?_⟩
    · rw [← hj] at hsw
      show (match dpSweep ctx P ja.1 ja.2 st with
        | Except.error e => Except.error e
        | Except.ok st4 => dpRun ctx P rest st4) = Except.ok st3
      rw [hsw]
      exact hrun
    · rw [show n + (ja :: rest).length = n + 1 + rest.length by
        simp [List.length_cons]
        omega]
      exact hS3

theorem greedy_anchors (p : List Char) : ∀ (t : List Char) (i n lo : Nat), lo ≤ i →
    AnchorsOK (i + p.length) n lo (List.enumFrom n (greedyPos p t i)) := by
  induction p with
  | nil =>
    intro t i n lo hlo
    cases t with
    | nil => exact trivial
    | cons a ts => exact trivial
  | cons c cs ih =>
    intro t i n lo hlo
    cases t with
    | nil => exact trivial
    | cons a ts =>
      by_cases h : c = a
      · rw [show greedyPos (c :: cs) (a :: ts) i = i :: greedyPos cs ts (i + 1) from by
          simp [greedyPos, h]]
        show n = n ∧ lo ≤ i ∧ i < i + (c :: cs).length ∧
          AnchorsOK (i + (c :: cs).length) (n + 1) i
            (List.enumFrom (n + 1) (greedyPos cs ts (i + 1)))
        refine ⟨rfl, hlo, by simp [List.length_cons], ?_⟩
        have h2 := ih ts (i + 1) (n + 1) i (by omega)
        rw [show i + 1 + cs.length = i + (c :: cs).length from by
          simp [List.length_cons]
          omega] at h2
        exact h2
      · rw [show greedyPos (c :: cs) (a :: ts) i = greedyPos cs (a :: ts) (i + 1) from by
          simp [greedyPos, h]]
        have h2 := ih (a :: ts) (i + 1) n lo (by omega)
        rw [show i + 1 + cs.length = i + (c :: cs).length from by
          simp [List.length_cons]
          omega] at h2
        exact h2

theorem backtrack_ok (st : DpState) (P : Nat) (relMax : Int) (startIndex : Int)
    (hcells : ∀ j2 c, st.path P j2 = some c →
      cellOK (fun j3 => st.path P j3) relMax j2 c) :
    ∀ (fuel : Nat) (i : Int) (acc : HitMatrix), i < fuel → -1 ≤ i →
      (i = -1 ∨ (st.path P i.toNat).isSome = true) →
      (∀ r ∈ acc, startIndex ≤ r.1 ∧ r.1 ≤ r.2 ∧ r.2 ≤ startIndex + relMax) →
      ∃ m, backtrack st P startIndex fuel i acc = JsVal.matrix m ∧
        ∀ r ∈ m, startIndex ≤ r.1 ∧ r.1 ≤ r.2 ∧ r.2 ≤ startIndex + relMax := by
  intro fuel
  induction fuel with
  | zero =>
    intro i acc hif h1 hsome hacc
    have hi : i < 0 := by omega
    refine ⟨acc, ?_, hacc⟩
    show (if i < 0 then JsVal.matrix acc else JsVal.crash) = JsVal.matrix acc
    rw [if_pos hi]
  | succ fuel2 ih =>
    intro i acc hif h1 hsome hacc
    by_cases hi : i < 0
    · refine ⟨acc, ?_, hacc⟩
      show (if i < 0 then JsVal.matrix acc else
        match st.path P i.toNat with
        | none => JsVal.crash
        | some (s, e, l) =>
          backtrack st P startIndex fuel2 (i - l) ((s + startIndex, e + startIndex) :: acc)) =
        JsVal.matrix acc
      rw [if_pos hi]
    · rcases hsome with h | h
      · exfalso
        omega
      · obtain ⟨c, hc⟩ := Option.isSome_iff_exists.mp h
        obtain ⟨s, e, l⟩ := c
        obtain ⟨hl1, hl2, hs0, hse2, hsr, hlink⟩ := hcells i.toNat (s, e, l) hc
        dsimp only at hl1 hl2 hs0 hse2 hsr hlink
        have hred : backtrack st P startIndex (fuel2 + 1) i acc =
            backtrack st P startIndex fuel2 (i - l)
              ((s + startIndex, e + startIndex) :: acc) := by
          show (if i < 0 then JsVal.matrix acc else
            match st.path P i.toNat with
            | none => JsVal.crash
            | some (s2, e2, l2) =>
              backtrack st P startIndex fuel2 (i - l2)
                ((s2 + startIndex, e2 + startIndex) :: acc)) = _
          rw [if_neg hi, hc]
        rw [hred]
        refine ih (i - l) _ (by omega) (by omega) ?_ ?_
        · rcases hlink with h2 | h2
          · left
            omega
          · right
            rw [show (i - (l : Int)).toNat = i.toNat - l by omega]
            exact h2
        · intro r hr
          rcases List.mem_cons.mp hr with hr | hr
          · subst hr
            refine ⟨by dsimp only; omega, by dsimp only; omega, by dsimp only; omega⟩
          · exact hacc r hr

theorem sbbm_master (d : SourceMappingData) (target : List Char) (s e : Int)
    (hwf : wellFormedB d = true) (h0 : 0 ≤ s) (hse : s ≤ e)
    (heL : e ≤ (d.originalLength : Int) - 1) :
    searchByBoundaryMapping d target s e ≠ JsVal.crash ∧
    ∀ m, searchByBoundaryMapping d target s e = JsVal.matrix m →
      ∀ r ∈ m, s ≤ r.1 ∧ r.1 ≤ r.2 ∧ r.2 ≤ e := by
  by_cases hguard : target = [] ∨ (pSlice d s e).length < target.length ∨
      d.originalLength = 0
  · have hred : searchByBoundaryMapping d target s e = JsVal.noMatch := by
      unfold searchByBoundaryMapping
      rw [if_pos hguard]
    rw [hred]
    exact ⟨fun h => JsVal.noConfusion h, fun m hm => JsVal.noConfusion hm⟩
  · push_neg at hguard
    obtain ⟨hne, hPT, hL0⟩ := hguard
    have hT1 : 1 ≤ target.length := by
      have h2 : target.length ≠ 0 := fun hc => hne (List.length_eq_zero.mp hc)
      omega
    have hP1 : 1 ≤ (pSlice d s e).length := by omega
    obtain ⟨hone, hctx⟩ := ctxOK_of_wf d target s e hwf h0 hse heL hP1
    by_cases hanch : (greedyPos (pSlice d s e) target 0).length < target.length
    · have hred : searchByBoundaryMapping d target s e = JsVal.noMatch := by
        unfold searchByBoundaryMapping
        rw [if_neg (by push_neg; exact ⟨hne, hPT, hL0⟩), hone]
        dsimp only
        rw [if_pos hanch]
      rw [hred]
      exact ⟨fun h => JsVal.noConfusion h, fun m hm => JsVal.noConfusion hm⟩
    · have hTlen : (greedyPos (pSlice d s e) target 0).length = target.length :=
        le_antisymm (greedyPos_length_le _ _ _) (by omega)
      have hA : AnchorsOK (pSlice d s e).length 0 0
          ((greedyPos (pSlice d s e) target 0).enum) := by
        have h2 := greedy_anchors (pSlice d s e) target 0 0 0 (le_refl 0)
        rw [Nat.zero_add] at h2
        exact h2
      obtain ⟨st2, lo2, hrun, hS⟩ := dpRun_inv
        ⟨pSlice d s e, target, bSlice d s e,
          ((bSlice d s e).getD 1 (0, 0)).1, ((bSlice d s e).getD 1 (0, 0)).2⟩
        (pSlice d s e).length (e - 1 - s) hctx
        ((greedyPos (pSlice d s e) target 0).enum) 0 0 dpInit hA
        (stOK_init _ _ _)
      rw [show (0 : Nat) + ((greedyPos (pSlice d s e) target 0).enum).length =
        target.length from by
          rw [List.enum_length, hTlen]
          omega] at hS
      obtain ⟨hcells, hvirg, -, -⟩ := hS
      have hcells2 : ∀ j2 c, st2.path (pSlice d s e).length j2 = some c →
          cellOK (fun j3 => st2.path (pSlice d s e).length j3) (e - 1 - s) j2 c := by
        intro j2 c hc
        by_cases hj2 : j2 < target.length
        · exact hcells _ j2 c hj2 hc
        · exfalso
          rw [hvirg _ j2 (by omega)] at hc
          cases hc
      cases hpath : st2.path (pSlice d s e).length (target.length - 1) with
      | none =>
        have hred : searchByBoundaryMapping d target s e = JsVal.noMatch := by
          unfold searchByBoundaryMapping
          rw [if_neg (by push_neg; exact ⟨hne, hPT, hL0⟩), hone]
          dsimp only
          rw [if_neg hanch, hrun]
          dsimp only
          rw [hpath]
        rw [hred]
        exact ⟨fun h => JsVal.noConfusion h, fun m hm => JsVal.noConfusion hm⟩
      | some c0 =>
        obtain ⟨m, hm, hmb⟩ := backtrack_ok st2 (pSlice d s e).length (e - 1 - s) s hcells2
          target.length ((target.length : Int) - 1) [] (by omega) (by omega)
          (Or.inr (by
            rw [show ((target.length : Int) - 1).toNat = target.length - 1 by omega, hpath]
            rfl))
          (by intro r hr; cases hr)
        have hred : searchByBoundaryMapping d target s e =
            backtrack st2 (pSlice d s e).length s target.length
              ((target.length : Int) - 1) [] := by
          unfold searchByBoundaryMapping
          rw [if_neg (by push_neg; exact ⟨hne, hPT, hL0⟩), hone]
          dsimp only
          rw [if_neg hanch, hrun]
          dsimp only
          rw [hpath]
        rw [hred, hm]
        refine ⟨fun h => JsVal.noConfusion h, ?_⟩
        intro m2 hm2
        injection hm2 with hm2
        subst hm2
        intro r hr
        have h3 := hmb r hr
        refine ⟨h3.1, h3.2.1, by have := h3.2.2; omega⟩

theorem restAux_ok (claimed : HitMatrix) (L : Nat) : ∀ (rem i : Nat) (openS : Option Int),
    i + rem = L →
    (∀ s, openS = some s → 0 ≤ s ∧ s ≤ (i : Int) - 1 ∧
      ∀ x : Int, s ≤ x → x ≤ (i : Int) - 1 → claimedAt claimed x = false) →
    ∀ r ∈ restAux claimed L i rem openS,
      0 ≤ r.1 ∧ r.1 ≤ r.2 ∧ r.2 ≤ (L : Int) - 1 ∧
      ∀ x : Int, r.1 ≤ x → x ≤ r.2 → claimedAt claimed x = false := by
  intro rem
  induction rem with
  | zero =>
    intro i openS hiL hopen r hr
    cases openS with
    | none => cases hr
    | some s0 =>
      have h := hopen s0 rfl
      have hr2 : r = (s0, (L : Int) - 1) := by
        rcases List.mem_cons.mp hr with h2 | h2
        · exact h2
        · cases h2
      subst hr2
      refine ⟨h.1, by dsimp only; omega, by dsimp only; omega, ?_⟩
      intro x hx1 hx2
      dsimp only at hx1 hx2
      exact h.2.2 x hx1 (by omega)
  | succ rem2 ih =>
    intro i openS hiL hopen r hr
    by_cases hcl : claimedAt claimed (i : Int) = true
    · cases openS with
      | some s0 =>
        rw [show restAux claimed L i (rem2 + 1) (some s0) =
            (s0, (i : Int) - 1) :: restAux claimed L (i + 1) rem2 none from by
          simp [restAux, hcl]] at hr
        rcases List.mem_cons.mp hr with h2 | h2
        · subst h2
          have h := hopen s0 rfl
          refine ⟨h.1, by dsimp only; omega, by dsimp only; omega, ?_⟩
          intro x hx1 hx2
          dsimp only at hx1 hx2
          exact h.2.2 x hx1 hx2
        · exact ih (i + 1) none (by omega) (fun s0 hs => Option.noConfusion hs) r h2
      | none =>
        rw [show restAux claimed L i (rem2 + 1) none =
            restAux claimed L (i + 1) rem2 none from by
          simp [restAux, hcl]] at hr
        exact ih (i + 1) none (by omega) (fun s0 hs => Option.noConfusion hs) r hr
    · have hclf : claimedAt claimed (i : Int) = false := Bool.eq_false_iff.mpr hcl
      cases openS with
      | some s0 =>
        rw [show restAux claimed L i (rem2 + 1) (some s0) =
            restAux claimed L (i + 1) rem2 (some s0) from by
          simp [restAux, hcl]] at hr
        refine ih (i + 1) (some s0) (by omega) ?_ r hr
        intro s1 hs
        injection hs with hs
        subst hs
        have h := hopen s0 rfl
        refine ⟨h.1, by push_cast; omega, ?_⟩
        intro x hx1 hx2
        push_cast at hx2
        by_cases hxi : x ≤ (i : Int) - 1
        · exact h.2.2 x hx1 hxi
        · rw [show x = (i : Int) by omega]
          exact hclf
      | none =>
        rw [show restAux claimed L i (rem2 + 1) none =
            restAux claimed L (i + 1) rem2 (some (i : Int)) from by
          simp [restAux, hcl]] at hr
        refine ih (i + 1) (some (i : Int)) (by omega) ?_ r hr
        intro s1 hs
        injection hs with hs
        subst hs
        refine ⟨Int.natCast_nonneg i, by push_cast; omega, ?_⟩
        intro x hx1 hx2
        push_cast at hx2
        rw [show x = (i : Int) by omega]
        exact hclf

theorem getRestRanges_ok (L : Nat) (claimed : HitMatrix) :
    ∀ r ∈ getRestRanges L claimed,
      0 ≤ r.1 ∧ r.1 ≤ r.2 ∧ r.2 ≤ (L : Int) - 1 ∧
      ∀ x : Int, r.1 ≤ x → x ≤ r.2 → claimedAt claimed x = false := by
  intro r hr
  exact restAux_ok claimed L L 0 none (by omega)
    (fun s0 hs => Option.noConfusion hs) r hr

theorem claimedAt_append (a b : HitMatrix) (x : Int)
    (h : claimedAt (a ++ b) x = false) : claimedAt a x = false := by
  unfold claimedAt at h ⊢
  rw [List.any_append, Bool.or_eq_false_iff] at h
  exact h.1

theorem tryRanges_ok (d : SourceMappingData) (hwf : wellFormedB d = true) (w : List Char) :
    ∀ rs : HitMatrix,
      (∀ r ∈ rs, 0 ≤ r.1 ∧ r.1 ≤ r.2 ∧ r.2 ≤ (d.originalLength : Int) - 1) →
      (∃ res, tryRanges d w rs = Except.ok res) ∧
      ∀ m, tryRanges d w rs = Except.ok (some m) →
        ∃ r, r ∈ rs ∧ searchByBoundaryMapping d w r.1 r.2 = JsVal.matrix m := by
  intro rs
  induction rs with
  | nil =>
    intro hb
    refine ⟨⟨none, rfl⟩, ?_⟩
    intro m hm
    injection hm with hm
    cases hm
  | cons r0 rs2 ih =>
    intro hb
    have hr := hb r0 (List.mem_cons_self r0 rs2)
    have hsb := sbbm_master d w r0.1 r0.2 hwf hr.1 hr.2.1 hr.2.2
    have ih2 := ih (fun r2 h2 => hb r2 (List.mem_cons_of_mem r0 h2))
    cases hres : searchByBoundaryMapping d w r0.1 r0.2 with
    | crash => exact absurd hres hsb.1
    | matrix m0 =>
      have hred : tryRanges d w (r0 :: rs2) = Except.ok (some m0) := by
        show (match searchByBoundaryMapping d w r0.1 r0.2 with
          | JsVal.crash => Except.error ()
          | JsVal.matrix m => Except.ok (some m)
          | JsVal.noMatch => tryRanges d w rs2) = Except.ok (some m0)
        rw [hres]
      rw [hred]
      refine ⟨⟨some m0, rfl⟩, ?_⟩
      intro m hm
      injection hm with hm
      injection hm with hm
      exact ⟨r0, List.mem_cons_self r0 rs2, by rw [hres, hm]⟩
    | noMatch =>
      have hred : tryRanges d w (r0 :: rs2) = tryRanges d w rs2 := by
        show (match searchByBoundaryMapping d w r0.1 r0.2 with
          | JsVal.crash => Except.error ()
          | JsVal.matrix m => Except.ok (some m)
          | JsVal.noMatch => tryRanges d w rs2) = tryRanges d w rs2
        rw [hres]
      rw [hred]
      refine ⟨ih2.1, ?_⟩
      intro m hm
      obtain ⟨r2, h2, h3⟩ := ih2.2 m hm
      exact ⟨r2, List.mem_cons_of_mem r0 h2, h3⟩

theorem wordsLoop_groups (d : SourceMappingData) (hwf : wellFormedB d = true) :
    ∀ (ws : List (List Char)) (acc : HitMatrix),
      wordsLoop d ws acc ≠ JsVal.crash ∧
      ∀ m, wordsLoop d ws acc = JsVal.matrix m →
        ∃ gs : List HitMatrix, gs.length = ws.length ∧ m = acc ++ gs.flatten ∧
          (∀ g ∈ gs, ∀ r ∈ g, 0 ≤ r.1 ∧ r.1 ≤ r.2 ∧ r.2 ≤ (d.originalLength : Int) - 1) ∧
          (∀ g ∈ gs, ∀ r ∈ g, ∀ x : Int, r.1 ≤ x → x ≤ r.2 →
            claimedAt acc x = false) ∧
          List.Pairwise (fun g1 g2 => ∀ r1 ∈ g1, ∀ r2 ∈ g2, ∀ x : Int,
            ¬(r1.1 ≤ x ∧ x ≤ r1.2 ∧ r2.1 ≤ x ∧ x ≤ r2.2)) gs := by
  intro ws
  induction ws with
  | nil =>
    intro acc
    refine ⟨fun h => JsVal.noConfusion h, ?_⟩
    intro m hm
    injection hm with hm
    subst hm
    refine ⟨[], rfl, by simp, ?_, ?_, List.Pairwise.nil⟩
    · intro g hg
      cases hg
    · intro g hg
      cases hg
  | cons w ws2 ih =>
    intro acc
    by_cases hrest : getRestRanges d.originalLength acc = []
    · have hred : wordsLoop d (w :: ws2) acc = JsVal.noMatch := by
        show (if getRestRanges d.originalLength acc = [] then JsVal.noMatch
          else
            match tryRanges d w (getRestRanges d.originalLength acc) with
            | Except.error _ => JsVal.crash
            | Except.ok none => JsVal.noMatch
            | Except.ok (some m) => wordsLoop d ws2 (acc ++ m)) = JsVal.noMatch
        rw [if_pos hrest]
      rw [hred]
      exact ⟨fun h => JsVal.noConfusion h, fun m hm => JsVal.noConfusion hm⟩
    · have hbnds := getRestRanges_ok d.originalLength acc
      obtain ⟨⟨res, hres⟩, htr2⟩ := tryRanges_ok d hwf w (getRestRanges d.originalLength acc)
        (fun r h => ⟨(hbnds r h).1, (hbnds r h).2.1, (hbnds r h).2.2.1⟩)
      cases res with
      | none =>
        have hred : wordsLoop d (w :: ws2) acc = JsVal.noMatch := by
          show (if getRestRanges d.originalLength acc = [] then JsVal.noMatch
            else
              match tryRanges d w (getRestRanges d.originalLength acc) with
              | Except.error _ => JsVal.crash
              | Except.ok none => JsVal.noMatch
              | Except.ok (some m) => wordsLoop d ws2 (acc ++ m)) = JsVal.noMatch
          rw [if_neg hrest, hres]
        rw [hred]
        exact ⟨fun h => JsVal.noConfusion h, fun m hm => JsVal.noConfusion hm⟩
      | some mw =>
        have hred : wordsLoop d (w :: ws2) acc = wordsLoop d ws2 (acc ++ mw) := by
          show (if getRestRanges d.originalLength acc = [] then JsVal.noMatch
            else
              match tryRanges d w (getRestRanges d.originalLength acc) with
              | Except.error _ => JsVal.crash
              | Except.ok none => JsVal.noMatch
              | Except.ok (some m) => wordsLoop d ws2 (acc ++ m)) =
            wordsLoop d ws2 (acc ++ mw)
          rw [if_neg hrest, hres]
        obtain ⟨r0, hr0mem, hr0⟩ := htr2 mw hres
        have hrb := hbnds r0 hr0mem
        have hmw := (sbbm_master d w r0.1 r0.2 hwf hrb.1 hrb.2.1 hrb.2.2.1).2 mw hr0
        have hmwb : ∀ r ∈ mw, 0 ≤ r.1 ∧ r.1 ≤ r.2 ∧ r.2 ≤ (d.originalLength : Int) - 1 := by
          intro r h
          exact ⟨le_trans hrb.1 (hmw r h).1, (hmw r h).2.1,
            le_trans (hmw r h).2.2 hrb.2.2.1⟩
        have hmwUn : ∀ r ∈ mw, ∀ x : Int, r.1 ≤ x → x ≤ r.2 →
            claimedAt acc x = false := by
          intro r h x hx1 hx2
          exact hrb.2.2.2 x (le_trans (hmw r h).1 hx1) (le_trans hx2 (hmw r h).2.2)
        rw [hred]
        obtain ⟨hcr, hmat⟩ := ih (acc ++ mw)
        refine ⟨hcr, ?_⟩
        intro m hm
        obtain ⟨gs2, hlen, hjoin, hgb, hgacc, hpair⟩ := hmat m hm
        refine ⟨mw :: gs2, by simp [hlen], ?_, ?_, ?_, ?_⟩
        · rw [hjoin, List.flatten_cons, List.append_assoc]
        · intro g hg r hr2
          rcases List.mem_cons.mp hg with h | h
          · subst h
            exact hmwb r hr2
          · exact hgb g h r hr2
        · intro g hg r hr2 x hx1 hx2
          rcases List.mem_cons.mp hg with h | h
          · subst h
            exact hmwUn r hr2 x hx1 hx2
          · exact claimedAt_append acc mw x (hgacc g h r hr2 x hx1 hx2)
        · refine List.Pairwise.cons ?_ hpair
          intro g hg r1 hr1 r2 hr2 x hx
          obtain ⟨hx1, hx2, hx3, hx4⟩ := hx
          have h1 := hgacc g hg r2 hr2 x hx3 hx4
          have h2 : claimedAt (acc ++ mw) x = true := by
            unfold claimedAt
            rw [List.any_eq_true]
            refine ⟨r1, List.mem_append_right acc hr1, ?_⟩
            rw [decide_eq_true hx1, decide_eq_true hx2]
            rfl
          rw [h1] at h2
          cases h2

theorem searchSentence_safe (d : SourceMappingData) (hwf : wellFormedB d = true)
    (sentence : List Char) : searchSentenceByBoundaryMapping d sentence ≠ JsVal.crash := by
  unfold searchSentenceByBoundaryMapping
  by_cases hs : sentence = []
  · rw [if_pos hs]
    exact fun h => JsVal.noConfusion h
  · rw [if_neg hs]
    cases hlit : searchWithIndexof d.originalString sentence with
    | some m => exact fun h => JsVal.noConfusion h
    | none => exact (wordsLoop_groups d hwf (splitWS (jsTrim sentence)) []).1

/-- C9: on well-formed mapping data no search component ever evaluates to
the thrown `TypeError` (`JsVal.crash`): the entry point (for any boundary
map provider that produces well-formed data), the sentence orchestrator,
and — for a valid inclusive sub-range — the core matcher all return a
normal value (a matrix or no-match); in particular the backtracking loop
only ever reads present path cells and every boundary access is in
bounds. -/
theorem claim9_no_exceptions (d : SourceMappingData) (hwf : wellFormedB d = true)
    (source target sentence word : List Char) (g : List Char → SourceMappingData)
    (hg : wellFormedB (g source) = true) (s e : Int)
    (h0 : 0 ≤ s) (hse : s ≤ e) (heL : e ≤ (d.originalLength : Int) - 1) :
    searchEntry source target g ≠ JsVal.crash ∧
    searchSentenceByBoundaryMapping d sentence ≠ JsVal.crash ∧
    searchByBoundaryMapping d word s e ≠ JsVal.crash := by
  refine ⟨?_, searchSentence_safe d hwf sentence, (sbbm_master d word s e hwf h0 hse heL).1⟩
  unfold searchEntry
  cases hlit : searchWithIndexof source target with
  | some m => exact fun h => JsVal.noConfusion h
  | none => exact searchSentence_safe (g source) hg target

/-- Witness for C9 at mapping data for `"ab"`, query `"q"`, and the full
sub-range `[0, 1]`: all three components return without crashing. -/
theorem claim9_witness :
    wellFormedB (identityData ("ab".toList)) = true ∧
    (searchEntry ("ab".toList) ("q".toList) (fun _ => identityData ("ab".toList)) ≠
        JsVal.crash ∧
      searchSentenceByBoundaryMapping (identityData ("ab".toList)) ("q".toList) ≠
        JsVal.crash ∧
      searchByBoundaryMapping (identityData ("ab".toList)) ("q".toList) 0 1 ≠
        JsVal.crash) :=
  ⟨by decide, claim9_no_exceptions (identityData ("ab".toList)) (by decide)
    ("ab".toList) ("q".toList) ("q".toList) ("q".toList)
    (fun _ => identityData ("ab".toList)) (by decide) 0 1 (by decide) (by decide)
    (by decide)⟩

/-- C10: every range of a matrix returned by `searchByBoundaryMapping`
on well-formed data and a valid inclusive sub-range `[s, e]` is an
ordered pair lying inside `[s, e]`: the matched original-character
indices never leave the requested sub-range. -/
theorem claim10_ranges_within (d : SourceMappingData) (target : List Char) (s e : Int)
    (hwf : wellFormedB d = true) (h0 : 0 ≤ s) (hse : s ≤ e)
    (heL : e ≤ (d.originalLength : Int) - 1) :
    ∀ m, searchByBoundaryMapping d target s e = JsVal.matrix m →
      ∀ r ∈ m, s ≤ r.1 ∧ r.1 ≤ r.2 ∧ r.2 ≤ e :=
  (sbbm_master d target s e hwf h0 hse heL).2

/-- Witness for C10 at the `"no_node"` / `"nod"` search over `[0, 6]`,
whose matrix is `[[3, 5]]`. -/
theorem claim10_witness :
    wellFormedB (identityData ("no_node".toList)) = true ∧
    ∀ r ∈ [((3 : Int), (5 : Int))], (0 : Int) ≤ r.1 ∧ r.1 ≤ r.2 ∧ r.2 ≤ (6 : Int) :=
  ⟨by decide, claim10_ranges_within (identityData ("no_node".toList)) ("nod".toList) 0 6
    (by decide) (by decide) (by decide) (by decide)
    [((3 : Int), (5 : Int))] (by rfl)⟩

/-- C4: when the sentence orchestrator runs the word-by-word placement
(the literal fast path missed) and returns a matrix, that matrix is
exactly the concatenation of one group of ranges per whitespace-separated
word of the trimmed query, each group confined to the string and — the
invariant — the groups pairwise sharing no original-string position,
because each word is only placed inside the not-yet-claimed rest ranges.
All-or-nothing failure holds as well: any result other than a full
per-word placement is `noMatch`, never a partial matrix and never an
exception. -/
theorem claim4_disjoint_word_placements (d : SourceMappingData)
    (hwf : wellFormedB d = true) (sentence : List Char)
    (hlit : searchWithIndexof d.originalString sentence = none) (hne : sentence ≠ []) :
    searchSentenceByBoundaryMapping d sentence ≠ JsVal.crash ∧
    ∀ m, searchSentenceByBoundaryMapping d sentence = JsVal.matrix m →
      ∃ gs : List HitMatrix, gs.length = (splitWS (jsTrim sentence)).length ∧
        m = gs.flatten ∧
        (∀ gr ∈ gs, ∀ r ∈ gr, 0 ≤ r.1 ∧ r.1 ≤ r.2 ∧
          r.2 ≤ (d.originalLength : Int) - 1) ∧
        List.Pairwise (fun g1 g2 => ∀ r1 ∈ g1, ∀ r2 ∈ g2, ∀ x : Int,
          ¬(r1.1 ≤ x ∧ x ≤ r1.2 ∧ r2.1 ≤ x ∧ x ≤ r2.2)) gs := by
  have hred : searchSentenceByBoundaryMapping d sentence =
      wordsLoop d (splitWS (jsTrim sentence)) [] := by
    unfold searchSentenceByBoundaryMapping
    rw [if_neg hne, hlit]
  rw [hred]
  obtain ⟨hcr, hmat⟩ := wordsLoop_groups d hwf (splitWS (jsTrim sentence)) []
  refine ⟨hcr, ?_⟩
  intro m hm
  obtain ⟨gs, hlen, hjoin, hgb, -, hpair⟩ := hmat m hm
  exact ⟨gs, hlen, by simpa using hjoin, hgb, hpair⟩

/-- Witness for C4 at source `"ab_cd"` and the two-word query `"c a"`:
the literal pass misses, the orchestrator places `"c"` at `[3, 3]` and
then `"a"` at `[0, 0]` inside the remaining ranges, and the two one-word
groups share no position. -/
theorem claim4_witness :
    wellFormedB (identityData ("ab_cd".toList)) = true ∧
    searchWithIndexof (identityData ("ab_cd".toList)).originalString ("c a".toList) =
      none ∧
    ∃ gs : List HitMatrix, gs.length = (splitWS (jsTrim ("c a".toList))).length ∧
      [((3 : Int), (3 : Int)), ((0 : Int), (0 : Int))] = gs.flatten ∧
      (∀ gr ∈ gs, ∀ r ∈ gr, 0 ≤ r.1 ∧ r.1 ≤ r.2 ∧
        r.2 ≤ ((identityData ("ab_cd".toList)).originalLength : Int) - 1) ∧
      List.Pairwise (fun g1 g2 => ∀ r1 ∈ g1, ∀ r2 ∈ g2, ∀ x : Int,
        ¬(r1.1 ≤ x ∧ x ≤ r1.2 ∧ r2.1 ≤ x ∧ x ≤ r2.2)) gs :=
  ⟨by decide, by rfl,
    (claim4_disjoint_word_placements (identityData ("ab_cd".toList)) (by decide)
      ("c a".toList) (by rfl) (by decide)).2
      [((3 : Int), (3 : Int)), ((0 : Int), (0 : Int))] (by rfl)⟩
